import Mathlib

/-!
Verification development for the query compilation pipeline in
`packages/gatsby/src/query/query-compiler.js` (the `Runner.write` method and
its helpers).  The JavaScript source is shallowly embedded: GraphQL
definitions become records carrying the fields the compiler reads (kind tag,
name, fragment-spread names in visit order, canonical printed text, and the
parser-attached metadata `text`, `isHook`, `isStaticQuery`, `hash`);
JavaScript `Map`s become insertion-ordered association lists with
overwrite-in-place semantics; the `while (stack.length > 0)` resolution loop
becomes a fuel-indexed recursion returning `Option`.  External collaborators
(the graphql `validate` calls, `path.relative`) are parameters of the
environment record, exactly as they are external inputs of the source.
-/

namespace GatsbyQueryCompiler

/-- Association list with JavaScript `Map` semantics: `set` overwrites the
value in place when the key is present (keeping the original insertion
position) and appends otherwise; iteration order is insertion order. -/
abbrev AssocMap (α : Type) := List (String × α)

/-- `Map.prototype.get`. -/
def mapGet {α : Type} (k : String) : AssocMap α → Option α
  | [] => none
  | (k', v) :: rest => if k' = k then some v else mapGet k rest

/-- `Map.prototype.set`. -/
def mapSet {α : Type} (k : String) (v : α) : AssocMap α → AssocMap α
  | [] => [(k, v)]
  | (k', v') :: rest => if k' = k then (k, v) :: rest else (k', v') :: mapSet k v rest

/-- `Map.prototype.has`. -/
def mapHas {α : Type} (k : String) (m : AssocMap α) : Bool := (mapGet k m).isSome

/-- One GraphQL definition as the compiler sees it: the `kind` tag
(`FRAGMENT_DEFINITION` versus `OPERATION_DEFINITION`), `name.value`, the
fragment-spread names `visit` encounters in its body (in document order),
the canonical `print`ed text, and the metadata fields the file parser
attaches to every definition (`text`, `isHook`, `isStaticQuery`, `hash`). -/
structure Definition where
  isFragment : Bool
  name : String
  spreads : List String
  printText : String
  text : String
  isHook : Bool
  isStaticQuery : Bool
  hash : String
  deriving DecidableEq, Repr

/-- An entry of the top-level fragment map: `{ def: definition, text: print(definition) }`. -/
structure FragEntry where
  defn : Definition
  text : String
  deriving DecidableEq, Repr

/-- A compiled query record, as assembled at the end of `Runner.write`. -/
structure Query where
  name : String
  text : String
  originalText : String
  path : String
  isHook : Bool
  isStaticQuery : Bool
  hash : String
  id : Option String
  deriving DecidableEq, Repr

/-- The diagnostics handed to `addError`, one constructor per `addError`
call site in `Runner.write`. -/
inductive Diag where
  | structural (filePath : String) (message : String)
  | globalValidation (docName : String) (filePath : Option String) (message : String)
  | multipleRootQueries (filePath : String) (thisDef : Option Definition) (otherDef : Option Definition)
  | undefinedFragment (filePath : String) (fragmentName : String) (closestFragment : Option String)
  deriving DecidableEq, Repr

/-- An error produced by the main (global) validation pass, reduced to the
fields `graphqlError` extracts from it: the owning definition's name and a
message. -/
structure GlobalErr where
  docName : String
  message : String
  deriving DecidableEq, Repr

/-- The external collaborators of `Runner.write`:
`preValidate` is `validate(schema, doc, preValidationRules)` (returning the
error messages for one file's document), `mainValidate` is
`validate(schema, globalDoc, mainValidationRules)`, and `relativize` is
`path.relative(store.getState().program.directory, ·)`. -/
structure Env where
  preValidate : String → List Definition → List String
  mainValidate : List Definition → List GlobalErr
  relativize : String → String

/-- The dependency cache `usedFragmentsForFragment`. -/
abbrev Cache := AssocMap (List String)

/-- The output map `compiledNodes`. -/
abbrev Compiled := AssocMap Query

/-! ## Levenshtein distance (`fast-levenshtein`'s `levenshtein.get`) -/

/-- Inner loop of one dynamic-programming row: `diag` is the previous row's
cell one to the left, `prev` the rest of the previous row, `left` the cell
just produced. -/
def levRowGo (c : Char) : List Char → List Nat → Nat → Nat → List Nat
  | [], _, _, _ => []
  | _ :: _, [], _, _ => []
  | b :: bs, p :: ps, diag, left =>
    let cell := if c = b then diag else 1 + min diag (min p left)
    cell :: levRowGo c bs ps p cell

/-- Produce the next dynamic-programming row from the previous one. -/
def levRow (c : Char) (bs : List Char) (prev : List Nat) : List Nat :=
  match prev with
  | [] => []
  | d :: ds => (d + 1) :: levRowGo c bs ds d (d + 1)

/-- Levenshtein edit distance. -/
def levenshtein (a b : String) : Nat :=
  let bs := b.data
  let final := a.data.foldl (fun row c => levRow c bs row) (List.range (bs.length + 1))
  final.getLastD 0

/-! ## Nearest-name suggestion (`closestFragment`) -/

/-- One candidate as built by `fragmentNames.map(f => ({ fragment: f, score: levenshtein.get(name, f) }))`. -/
structure Scored where
  fragment : String
  score : Nat
  deriving DecidableEq, Repr

/-- The effect of the source's `.sort((a, b) => a.score > b.score)` on the
candidate list.  The comparator returns a boolean, which the engine coerces
to 0 or 1: it never returns a negative number.  V8's TimSort (the engine of
every Node version able to run this file, which uses optional chaining)
moves an element only on a negative comparator result — binary insertion
keeps each pivot where binary search on never-negative answers puts it, at
its original position, and run merging never reorders — so the sort leaves
the array unchanged; ECMAScript in any case leaves the order
implementation-defined for such an inconsistent comparator.  The sort is
therefore the identity on the candidate list. -/
def sortByScore (l : List Scored) : List Scored := l

/-- `fragmentNames.map(score).filter(f => f.score < 10).sort(...)[0]?.fragment`. -/
def closestFragment (fragmentNames : List String) (name : String) : Option String :=
  ((sortByScore ((fragmentNames.map (fun f => Scored.mk f (levenshtein name f))).filter
    (fun s => s.score < 10))).head?).map Scored.fragment

/-! ## Static-query id derivation -/

/-- ASCII lower-case letter. -/
def isLowerCh (c : Char) : Bool := 97 ≤ c.toNat && c.toNat ≤ 122

/-- ASCII upper-case letter. -/
def isUpperCh (c : Char) : Bool := 65 ≤ c.toNat && c.toNat ≤ 90

/-- ASCII digit. -/
def isDigitCh (c : Char) : Bool := 48 ≤ c.toNat && c.toNat ≤ 57

/-- Characters that form words for the kebab-case conversion. -/
def isWordCh (c : Char) : Bool := isLowerCh c || isUpperCh c || isDigitCh c

/-- ASCII lower-casing of a character. -/
def toLowerCh (c : Char) : Char :=
  if isUpperCh c then Char.ofNat (c.toNat + 32) else c

/-- The characters a kebab-case string may contain: lower-case letters,
digits, hyphens. -/
def isKebabCh (c : Char) : Bool := isLowerCh c || isDigitCh c || c = '-'

/-- Maximal runs of word characters (everything else separates words).
`acc` is the current run, reversed. -/
def splitRunsAux : List Char → List Char → List (List Char)
  | acc, [] => if acc.isEmpty then [] else [acc.reverse]
  | acc, c :: rest =>
    if isWordCh c then splitRunsAux (c :: acc) rest
    else if acc.isEmpty then splitRunsAux [] rest
    else acc.reverse :: splitRunsAux [] rest

/-- Split a string into its maximal word-character runs. -/
def splitRuns (s : List Char) : List (List Char) := splitRunsAux [] s

/-- Modelled from the spec: lodash's word splitting (used by `_.kebabCase`,
an external library) breaks a run between `p` and `c` at case transitions
(`aB`), letter/digit boundaries, and before the last capital of an
upper-case run that is followed by a lower-case letter (`ABc` → `A`, `Bc`). -/
def camelBreak (p c : Char) (rest : List Char) : Bool :=
  (isLowerCh p && isUpperCh c) ||
  ((isLowerCh p || isUpperCh p) && isDigitCh c) ||
  (isDigitCh p && (isLowerCh c || isUpperCh c)) ||
  (isUpperCh p && isUpperCh c &&
    (match rest with
     | r :: _ => isLowerCh r
     | [] => false))

/-- Split one word run at camel-case boundaries; `acc` is the current word,
reversed. -/
def splitCamelAux : List Char → List Char → List (List Char)
  | acc, [] => if acc.isEmpty then [] else [acc.reverse]
  | acc, c :: rest =>
    match acc with
    | [] => splitCamelAux [c] rest
    | p :: _ =>
      if camelBreak p c rest then acc.reverse :: splitCamelAux [c] rest
      else splitCamelAux (c :: acc) rest

/-- Split one run of word characters into camel-case words. -/
def splitCamel (run : List Char) : List (List Char) := splitCamelAux [] run

/-- All words of a string, for the kebab-case conversion. -/
def kebabWords (s : String) : List (List Char) :=
  (splitRuns s.data).flatMap splitCamel

/-- Join words with `-` separators. -/
def joinHyphen : List (List Char) → List Char
  | [] => []
  | [w] => w
  | w :: ws => w ++ '-' :: joinHyphen ws

/-- Modelled from the spec: lodash `_.kebabCase` (external library) — the
lowercase hyphen-delimited form of a string. -/
def kebabCase (s : String) : String :=
  String.mk (joinHyphen ((kebabWords s).map (List.map toLowerCh)))

/-- The static-query id: `` `sq--` + _.kebabCase(relativePath) ``. -/
def staticQueryId (relativePath : String) : String :=
  "sq--" ++ kebabCase relativePath

/-! ## Merge phase (per-file loop of `Runner.write`) -/

/-- The accumulated per-run state of the merge loop: `namePathMap`,
`nameDefMap`, `operationDefinitions` and the top-level `fragmentMap`. -/
structure MergeState where
  namePathMap : AssocMap String
  nameDefMap : AssocMap Definition
  operationDefinitions : List Definition
  fragmentMap : AssocMap FragEntry
  deriving DecidableEq, Repr

/-- The empty state created at the top of `Runner.write`. -/
def initState : MergeState := MergeState.mk [] [] [] []

/-- The `doc.definitions.filter(...)` pass: a fragment whose name is already
registered with identical printed text is dropped; a fragment with an
unregistered name is registered (`fragmentMap.set`); everything else is
kept.  The fragment map is threaded through because the filter callback
mutates it. -/
def filterDefs : AssocMap FragEntry → List Definition → List Definition × AssocMap FragEntry
  | fm, [] => ([], fm)
  | fm, d :: rest =>
    if d.isFragment then
      match mapGet d.name fm with
      | some entry =>
        if d.printText = entry.text then filterDefs fm rest
        else
          let r := filterDefs fm rest
          (d :: r.1, r.2)
      | none =>
        let r := filterDefs (mapSet d.name (FragEntry.mk d d.printText) fm) rest
        (d :: r.1, r.2)
    else
      let r := filterDefs fm rest
      (d :: r.1, r.2)

/-- The `doc.definitions.forEach(...)` indexing pass, for one definition:
`namePathMap.set(name, filePath)`, `nameDefMap.set(name, def)`, and
operations are appended to `operationDefinitions`. -/
def indexStep (filePath : String) (st : MergeState) (d : Definition) : MergeState :=
  MergeState.mk
    (mapSet d.name filePath st.namePathMap)
    (mapSet d.name d st.nameDefMap)
    (if d.isFragment then st.operationDefinitions else st.operationDefinitions ++ [d])
    st.fragmentMap

/-- Index every surviving definition of a file. -/
def indexDefs (filePath : String) (st : MergeState) (defs : List Definition) : MergeState :=
  defs.foldl (indexStep filePath) st

/-- Process one file of the merge loop: structural validation first (a
failure converts every error to a diagnostic and aborts), then the dedup
filter, then indexing. -/
def processFile (env : Env) (st : MergeState) (filePath : String) (defs : List Definition) :
    Except (List Diag) MergeState :=
  let errs := env.preValidate filePath defs
  if errs.isEmpty then
    let r := filterDefs st.fragmentMap defs
    Except.ok (indexDefs filePath
      (MergeState.mk st.namePathMap st.nameDefMap st.operationDefinitions r.2) r.1)
  else Except.error (errs.map (Diag.structural filePath))

/-- The whole merge loop over `nodes.entries()`; `return compiledNodes`
after a structural failure becomes the `Except.error` short-circuit. -/
def mergeAll (env : Env) : MergeState → List (String × List Definition) → Except (List Diag) MergeState
  | st, [] => Except.ok st
  | st, (filePath, defs) :: rest =>
    match processFile env st filePath defs with
    | Except.ok st' => mergeAll env st' rest
    | Except.error e => Except.error e

/-! ## Global validation -/

/-- The synthetic global document: all operations followed by the
registered canonical fragments (`fragmentMap.values()`). -/
def globalDoc (st : MergeState) : List Definition :=
  st.operationDefinitions ++ st.fragmentMap.map (fun p => p.2.defn)

/-- The diagnostics of the main validation pass, each attributed to a file
through `namePathMap`. -/
def globalDiags (env : Env) (st : MergeState) : List Diag :=
  (env.mainValidate (globalDoc st)).map
    (fun e => Diag.globalValidation e.docName (mapGet e.docName st.namePathMap) e.message)

/-- Modelled from the spec: the graphql `UniqueFragmentNamesRule` (external
to this repository) run by the Global Validator — it reports each fragment
name borne by two or more fragment definitions of the document it is given. -/
def uniqueFragmentNamesErrors (defs : List Definition) : List String :=
  let fragNames := (defs.filter (fun d => d.isFragment)).map (fun d => d.name)
  fragNames.filter (fun n => 1 < fragNames.count n)

/-! ## Fragment resolution (the per-operation `while` loop) -/

/-- The mutable state of the resolution loop: the work stack (head = top),
the insertion-ordered `usedFragments` set, and the diagnostics emitted so
far. -/
structure ResolveAcc where
  stack : List Definition
  used : List String
  errs : List Diag
  deriving Repr

/-- `Set.prototype.add`: append if absent (JavaScript sets keep first
insertion order). -/
def addUsed (n : String) (l : List String) : List String :=
  if n ∈ l then l else l ++ [n]

/-- The `FRAGMENT_SPREAD` visitor callback for one spread name: a cache hit
unions the cached closure into `usedFragments` and adds the name; a
registry hit pushes the fragment's definition and adds the name; otherwise
an undefined-fragment diagnostic (error id 85908) with the nearest-name
suggestion is emitted. -/
def visitSpread (cache : Cache) (fm : AssocMap FragEntry) (fragNames : List String)
    (filePath : String) (acc : ResolveAcc) (n : String) : ResolveAcc :=
  match mapGet n cache with
  | some derived =>
    ResolveAcc.mk acc.stack (addUsed n (derived.foldl (fun u m => addUsed m u) acc.used)) acc.errs
  | none =>
    match mapGet n fm with
    | some entry => ResolveAcc.mk (entry.defn :: acc.stack) (addUsed n acc.used) acc.errs
    | none =>
      ResolveAcc.mk acc.stack acc.used
        (acc.errs ++ [Diag.undefinedFragment filePath n (closestFragment fragNames n)])

/-- The `while (stack.length > 0)` loop: pop a definition, visit each of
its fragment spreads in order, repeat.  The recursion is indexed by fuel
because the source loop does not terminate on cyclic fragment spreads. -/
def resolveLoop (cache : Cache) (fm : AssocMap FragEntry) (fragNames : List String)
    (filePath : String) :
    Nat → List Definition → List String → List Diag → Option (List String × List Diag)
  | _, [], used, errs => some (used, errs)
  | 0, _ :: _, _, _ => none
  | Nat.succ fuel, d :: rest, used, errs =>
    let acc := d.spreads.foldl (visitSpread cache fm fragNames filePath)
      (ResolveAcc.mk rest used errs)
    resolveLoop cache fm fragNames filePath fuel acc.stack acc.used acc.errs

/-! ## Query assembly -/

/-- `print(document)`: graphql joins the printed definitions with blank
lines. -/
def printDoc (defs : List Definition) : String :=
  String.intercalate "\n\n" (defs.map (fun d => d.printText))

/-- Assemble the compiled query record for one operation: the document is
the used fragments (mapped back through `fragmentMap`) followed by the
operation; `originalText`, the classification flags and the hash are read
from `nameDefMap`; a static query gets its derived id. -/
def mkQuery (env : Env) (st : MergeState) (op : Definition) (used : List String)
    (filePath : String) : Query :=
  let document := (used.filterMap (fun n => (mapGet n st.fragmentMap).map FragEntry.defn)) ++ [op]
  let defOfName := (mapGet op.name st.nameDefMap).getD op
  Query.mk op.name (printDoc document) defOfName.text filePath defOfName.isHook
    defOfName.isStaticQuery defOfName.hash
    (if defOfName.isStaticQuery then some (staticQueryId (env.relativize filePath)) else none)

/-- `Array.from(fragmentMap.keys())`, computed once before the operation
loop. -/
def fragmentNames (st : MergeState) : List String := st.fragmentMap.map Prod.fst

/-- One iteration of the operation loop: the duplicate-root check first
(rejecting the operation with a `multipleRootQueriesError` when its file
already has a compiled query), then fragment resolution, then — since the
source's `missingFragment` flag is a `const false` that is never set — the
query is always assembled and stored. -/
def compileOp (env : Env) (fuel : Nat) (st : MergeState) (acc : Compiled × List Diag × Cache)
    (op : Definition) : Option (Compiled × List Diag × Cache) :=
  let compiled := acc.1
  let errs := acc.2.1
  let cache := acc.2.2
  let filePath := (mapGet op.name st.namePathMap).getD ""
  if mapHas filePath compiled then
    some (compiled,
      errs ++ [Diag.multipleRootQueries filePath (mapGet op.name st.nameDefMap)
        ((mapGet filePath compiled).bind (fun q => mapGet q.name st.nameDefMap))],
      cache)
  else
    match resolveLoop cache st.fragmentMap (fragmentNames st) filePath fuel [op] [] [] with
    | none => none
    | some (used, rerrs) =>
      let missingFragment := false
      if missingFragment then some (compiled, errs ++ rerrs, cache)
      else some (mapSet filePath (mkQuery env st op used filePath) compiled, errs ++ rerrs, cache)

/-- The whole operation loop. -/
def compileOps (env : Env) (fuel : Nat) (st : MergeState) :
    List Definition → (Compiled × List Diag × Cache) → Option (Compiled × List Diag × Cache)
  | [], acc => some acc
  | op :: rest, acc =>
    match compileOp env fuel st acc op with
    | some acc' => compileOps env fuel st rest acc'
    | none => none

/-- `Runner.write`, instrumented to also return the final state of the
dependency cache `usedFragmentsForFragment` (which the source creates
empty before the operation loop). -/
def writeFull (env : Env) (fuel : Nat) (nodes : List (String × List Definition)) :
    Option (Compiled × List Diag × Cache) :=
  match mergeAll env initState nodes with
  | Except.error ds => some ([], ds, [])
  | Except.ok st =>
    (compileOps env fuel st st.operationDefinitions ([], [], [])).map
      (fun r => (r.1, globalDiags env st ++ r.2.1, r.2.2))

/-- `Runner.write`: the compiled-query map together with the diagnostics
handed to `addError`, in emission order. -/
def write (env : Env) (fuel : Nat) (nodes : List (String × List Definition)) :
    Option (Compiled × List Diag) :=
  (writeFull env fuel nodes).map (fun r => (r.1, r.2.1))

/-- Specification-side helper: the first fragment definition bearing a
given name, in batch order. -/
def firstFragmentNamed (nodes : List (String × List Definition)) (n : String) : Option Definition :=
  ((nodes.flatMap Prod.snd).filter (fun d => d.isFragment && d.name = n)).head?

/-- First-some choice on options (explicit form of JavaScript's `??`). -/
def orElseO {α : Type} : Option α → Option α → Option α
  | some x, _ => some x
  | none, b => b

/-- The first fragment definition bearing a given name within one
definition list. -/
def firstFragIn (defs : List Definition) (n : String) : Option Definition :=
  (defs.filter (fun d => d.isFragment && d.name = n)).head?

/-- Invariant of the fragment map: keys are distinct, and each entry is a
fragment definition bearing its key as name. -/
def FmInv (fm : AssocMap FragEntry) : Prop :=
  (fm.map Prod.fst).Nodup ∧ ∀ p ∈ fm, p.2.defn.name = p.1 ∧ p.2.defn.isFragment = true

/-- Invariant of the operation list: it holds operation definitions only. -/
def OpInv (ops : List Definition) : Prop := ∀ d ∈ ops, d.isFragment = false

/-- Recognizer for duplicate-root diagnostics. -/
def isMultipleRoot : Diag → Bool
  | Diag.multipleRootQueries _ _ _ => true
  | _ => false

/-- Recognizer for undefined-fragment diagnostics. -/
def isUndefinedFragment : Diag → Bool
  | Diag.undefinedFragment _ _ _ => true
  | _ => false

/-! ## Helper lemmas -/

theorem orElseO_none_right {α : Type} (a : Option α) : orElseO a none = a := by
  cases a <;> rfl

theorem orElseO_assoc {α : Type} (a b c : Option α) :
    orElseO (orElseO a b) c = orElseO a (orElseO b c) := by
  cases a <;> rfl

theorem orElseO_map {α β : Type} (f : α → β) (a b : Option α) :
    (orElseO a b).map f = orElseO (a.map f) (b.map f) := by
  cases a <;> rfl

theorem head?_append {α : Type} (l₁ l₂ : List α) :
    (l₁ ++ l₂).head? = orElseO l₁.head? l₂.head? := by
  cases l₁ <;> rfl

theorem mapGet_mapSet_self {α : Type} (k : String) (v : α) (m : AssocMap α) :
    mapGet k (mapSet k v m) = some v := by
  induction m with
  | nil => simp [mapGet, mapSet]
  | cons p rest ih =>
    by_cases h : p.1 = k
    · simp [mapGet, mapSet, h]
    · simp [mapGet, mapSet, h, ih]

theorem mapGet_mapSet_ne {α : Type} (k k' : String) (v : α) (m : AssocMap α)
    (h : k' ≠ k) : mapGet k (mapSet k' v m) = mapGet k m := by
  induction m with
  | nil => simp [mapGet, mapSet, h]
  | cons p rest ih =>
    by_cases hp : p.1 = k'
    · simp [mapGet, mapSet, hp, h]
    · simp only [mapSet, hp, if_false]
      by_cases hk : p.1 = k
      · simp [mapGet, hk]
      · simp [mapGet, hk, ih]

theorem mapGet_none_iff {α : Type} (k : String) (m : AssocMap α) :
    mapGet k m = none ↔ k ∉ m.map Prod.fst := by
  induction m with
  | nil => simp [mapGet]
  | cons p rest ih =>
    by_cases h : p.1 = k
    · simp [mapGet, h]
    · simp [mapGet, h, ih, Ne.symm h]

theorem or_eq_orElseO {α : Type} (a b : Option α) : a.or b = orElseO a b := by
  cases a <;> rfl

theorem firstFragIn_append (l₁ l₂ : List Definition) (n : String) :
    firstFragIn (l₁ ++ l₂) n = orElseO (firstFragIn l₁ n) (firstFragIn l₂ n) := by
  simp [firstFragIn, List.filter_append, head?_append, or_eq_orElseO]

theorem firstFragmentNamed_cons (fp : String) (dfs : List Definition)
    (rest : List (String × List Definition)) (n : String) :
    firstFragmentNamed ((fp, dfs) :: rest) n
      = orElseO (firstFragIn dfs n) (firstFragmentNamed rest n) := by
  simp [firstFragmentNamed, firstFragIn, List.flatMap_cons, List.filter_append, head?_append,
    or_eq_orElseO]

/-- Lookup in the fragment map after the dedup filter: the previously
registered entry when there was one, otherwise the first fragment with that
name in the processed definition list (first writer wins). -/
theorem filterDefs_get (defs : List Definition) :
    ∀ (fm : AssocMap FragEntry) (n : String),
    mapGet n (filterDefs fm defs).2
      = orElseO (mapGet n fm)
          ((firstFragIn defs n).map (fun d => FragEntry.mk d d.printText)) := by
  induction defs with
  | nil => intro fm n; simp [filterDefs, firstFragIn, orElseO_none_right]
  | cons d rest ih =>
    intro fm n
    by_cases hf : d.isFragment = true
    · by_cases hn : d.name = n
      · have hfirst : firstFragIn (d :: rest) n = some d := by
          simp [firstFragIn, List.filter_cons, hf, hn]
        cases hget : mapGet d.name fm with
        | some entry =>
          have hget' : mapGet n fm = some entry := hn ▸ hget
          rw [hfirst]
          by_cases ht : d.printText = entry.text
          · simp only [filterDefs, hf, if_true, hget, ht, if_pos]
            rw [ih fm n, hget']
            rfl
          · simp only [filterDefs, hf, if_true, hget, ht, if_neg, ite_false]
            rw [ih fm n, hget']
            rfl
        | none =>
          have hget' : mapGet n fm = none := hn ▸ hget
          rw [hfirst]
          simp only [filterDefs, hf, if_true, hget]
          rw [ih _ n]
          have : mapGet n (mapSet d.name (FragEntry.mk d d.printText) fm)
              = some (FragEntry.mk d d.printText) := by
            rw [hn]
            exact mapGet_mapSet_self n _ fm
          rw [this, hget']
          rfl
      · have hfirst : firstFragIn (d :: rest) n = firstFragIn rest n := by
          simp [firstFragIn, List.filter_cons, hn]
        rw [hfirst]
        cases hget : mapGet d.name fm with
        | some entry =>
          by_cases ht : d.printText = entry.text
          · simp only [filterDefs, hf, if_true, hget, ht, if_pos]
            exact ih fm n
          · simp only [filterDefs, hf, if_true, hget, ht, if_neg, ite_false]
            exact ih fm n
        | none =>
          simp only [filterDefs, hf, if_true, hget]
          rw [ih _ n, mapGet_mapSet_ne n d.name _ fm hn]
    · have hf' : d.isFragment = false := by
        cases hb : d.isFragment
        · rfl
        · exact absurd hb hf
      have hfirst : firstFragIn (d :: rest) n = firstFragIn rest n := by
        simp [firstFragIn, List.filter_cons, hf']
      rw [hfirst]
      simp only [filterDefs, hf', Bool.false_eq_true, if_false]
      exact ih fm n

theorem indexDefs_fragmentMap (fp : String) (defs : List Definition) :
    ∀ st : MergeState, (indexDefs fp st defs).fragmentMap = st.fragmentMap := by
  induction defs with
  | nil => intro st; rfl
  | cons d rest ih => intro st; simp [indexDefs, List.foldl_cons] at ih ⊢; rw [ih]; rfl

theorem indexDefs_ops (fp : String) (defs : List Definition) :
    ∀ st : MergeState, (indexDefs fp st defs).operationDefinitions
      = st.operationDefinitions ++ defs.filter (fun d => !d.isFragment) := by
  induction defs with
  | nil => intro st; simp [indexDefs]
  | cons d rest ih =>
    intro st
    simp only [indexDefs, List.foldl_cons] at ih ⊢
    rw [ih]
    cases hb : d.isFragment <;> simp [indexStep, hb, List.filter_cons]

/-- The registered fragment for each name, after the whole merge loop, is
the first-registered one: first writer wins across the batch. -/
theorem mergeAll_fragGet (env : Env) (nodes : List (String × List Definition)) :
    ∀ (st st' : MergeState), mergeAll env st nodes = Except.ok st' →
    ∀ n, mapGet n st'.fragmentMap
      = orElseO (mapGet n st.fragmentMap)
          ((firstFragmentNamed nodes n).map (fun d => FragEntry.mk d d.printText)) := by
  induction nodes with
  | nil =>
    intro st st' h n
    simp only [mergeAll] at h
    cases h
    simp [firstFragmentNamed, orElseO_none_right]
  | cons node rest ih =>
    intro st st' h n
    obtain ⟨fp, dfs⟩ := node
    simp only [mergeAll, processFile] at h
    cases hemp : (env.preValidate fp dfs).isEmpty with
    | false => rw [hemp] at h; simp at h
    | true =>
      rw [hemp] at h
      simp only [if_true] at h
      have := ih _ _ h n
      rw [this, indexDefs_fragmentMap]
      simp only
      rw [filterDefs_get dfs st.fragmentMap n, orElseO_assoc,
        firstFragmentNamed_cons, orElseO_map]

theorem mapSet_fresh {α : Type} (k : String) (v : α) (fm : AssocMap α)
    (h : mapGet k fm = none) : mapSet k v fm = fm ++ [(k, v)] := by
  induction fm with
  | nil => rfl
  | cons p rest ih =>
    simp only [mapGet] at h
    by_cases hp : p.1 = k
    · rw [if_pos hp] at h; cases h
    · rw [if_neg hp] at h
      simp [mapSet, hp, ih h]

theorem filterDefs_inv (defs : List Definition) :
    ∀ fm : AssocMap FragEntry, FmInv fm → FmInv (filterDefs fm defs).2 := by
  induction defs with
  | nil => intro fm h; exact h
  | cons d rest ih =>
    intro fm h
    by_cases hf : d.isFragment = true
    · cases hget : mapGet d.name fm with
      | some entry =>
        by_cases ht : d.printText = entry.text
        · simp only [filterDefs, hf, if_true, hget, ht, if_pos]
          exact ih fm h
        · simp only [filterDefs, hf, if_true, hget, ht, if_neg, ite_false]
          exact ih fm h
      | none =>
        simp only [filterDefs, hf, if_true, hget]
        apply ih
        rw [mapSet_fresh d.name _ fm hget]
        constructor
        · rw [List.map_append]
          rw [List.nodup_append]
          refine ⟨h.1, List.nodup_singleton _, ?_⟩
          intro a ha hb
          simp at hb
          subst hb
          exact (mapGet_none_iff d.name fm).mp hget ha
        · intro p hp
          rcases List.mem_append.mp hp with hmem | hmem
          · exact h.2 p hmem
          · simp at hmem
            subst hmem
            exact ⟨rfl, hf⟩
    · have hf' : d.isFragment = false := by
        cases hb : d.isFragment
        · rfl
        · exact absurd hb hf
      simp only [filterDefs, hf', Bool.false_eq_true, if_false]
      exact ih fm h

theorem mergeAll_inv (env : Env) (nodes : List (String × List Definition)) :
    ∀ (st st' : MergeState), mergeAll env st nodes = Except.ok st' →
    FmInv st.fragmentMap → OpInv st.operationDefinitions →
    FmInv st'.fragmentMap ∧ OpInv st'.operationDefinitions := by
  induction nodes with
  | nil =>
    intro st st' h h1 h2
    simp only [mergeAll] at h
    cases h
    exact ⟨h1, h2⟩
  | cons node rest ih =>
    intro st st' h h1 h2
    obtain ⟨fp, dfs⟩ := node
    simp only [mergeAll, processFile] at h
    cases hemp : (env.preValidate fp dfs).isEmpty with
    | false => rw [hemp] at h; simp at h
    | true =>
      rw [hemp] at h
      simp only [if_true] at h
      apply ih _ _ h
      · rw [indexDefs_fragmentMap]
        exact filterDefs_inv dfs st.fragmentMap h1
      · rw [indexDefs_ops]
        intro d hd
        rcases List.mem_append.mp hd with hmem | hmem
        · exact h2 d hmem
        · have := (List.mem_filter.mp hmem).2
          cases hb : d.isFragment
          · rfl
          · rw [hb] at this; cases this

/-! ## C1: conflicting same-name fragments and the uniqueness rule -/

/-- C1 (amended): after the merge loop the global document contains at most
one fragment definition per name — the first-registered one — so the
unique-fragment-names rule of the Global Validator reports nothing, and
every downstream fragment lookup silently resolves to the first-registered
version even when a later definition with the same name and different text
exists. -/
theorem claim_c1_amended (env : Env) (nodes : List (String × List Definition))
    (st : MergeState) (h : mergeAll env initState nodes = Except.ok st) :
    uniqueFragmentNamesErrors (globalDoc st) = []
    ∧ ∀ n, (mapGet n st.fragmentMap).map FragEntry.defn = firstFragmentNamed nodes n := by
  have hinv := mergeAll_inv env nodes initState st h
    ⟨List.nodup_nil, by intro p hp; cases hp⟩ (by intro d hd; cases hd)
  constructor
  · have hfrag : (globalDoc st).filter (fun d => d.isFragment)
        = st.fragmentMap.map (fun p => p.2.defn) := by
      unfold globalDoc
      rw [List.filter_append]
      have h1 : st.operationDefinitions.filter (fun d => d.isFragment) = [] := by
        apply List.filter_eq_nil_iff.mpr
        intro d hd
        rw [hinv.2 d hd]
        simp
      have h2 : (st.fragmentMap.map (fun p => p.2.defn)).filter (fun d => d.isFragment)
          = st.fragmentMap.map (fun p => p.2.defn) := by
        apply List.filter_eq_self.mpr
        intro d hd
        obtain ⟨p, hp, hpd⟩ := List.mem_map.mp hd
        rw [← hpd]
        exact (hinv.1.2 p hp).2
      rw [h1, h2, List.nil_append]
    have hnames : ((globalDoc st).filter (fun d => d.isFragment)).map (fun d => d.name)
        = st.fragmentMap.map Prod.fst := by
      rw [hfrag, List.map_map]
      apply List.map_congr_left
      intro p hp
      exact (hinv.1.2 p hp).1
    unfold uniqueFragmentNamesErrors
    simp only
    rw [hnames]
    apply List.filter_eq_nil_iff.mpr
    intro n hn
    have hle := List.nodup_iff_count_le_one.mp hinv.1.1 n
    simp only [decide_eq_true_eq]
    omega
  · intro n
    have := mergeAll_fragGet env nodes initState st h n
    simp only [initState, mapGet] at this
    rw [this]
    cases firstFragmentNamed nodes n <;> rfl

/-- Concrete instance of the amended C1 theorem on a batch holding two
same-named fragments with different text: the registry keeps the first. -/
theorem claim_c1_amended_witness :
    uniqueFragmentNamesErrors (globalDoc (MergeState.mk
        [("F", "f1.js"), ("Q", "f3.js")]
        [("F", Definition.mk true "F" [] "fragment F on X a" "fragment F on X a" false false "h1"),
         ("Q", Definition.mk false "Q" ["F"] "query Q" "query Q" false false "h3")]
        [Definition.mk false "Q" ["F"] "query Q" "query Q" false false "h3"]
        [("F", FragEntry.mk
          (Definition.mk true "F" [] "fragment F on X a" "fragment F on X a" false false "h1")
          "fragment F on X a")])) = [] := by
  have h := claim_c1_amended (Env.mk (fun _ _ => []) (fun _ => []) id)
    ([("f1.js", [Definition.mk true "F" [] "fragment F on X a" "fragment F on X a" false false "h1"]),
      ("f2.js", [Definition.mk true "F" [] "fragment F on X b" "fragment F on X b" false false "h2"]),
      ("f3.js", [Definition.mk false "Q" ["F"] "query Q" "query Q" false false "h3"])]) _ (by rfl)
  exact h.1

/-- C1 (counterexample to the claim as stated): a batch holding two
fragment definitions named F with differing canonical text, compiled with
the main validation pass instantiated to the unique-fragment-names rule,
yields NO diagnostic at all — the rule never sees the second definition —
and the compiled query silently embeds the first version's text. -/
theorem claim_c1_counterexample :
    (write (Env.mk (fun _ _ => [])
        (fun defs => (uniqueFragmentNamesErrors defs).map
          (fun n => GlobalErr.mk n "duplicate fragment name")) id) 5
      ([("f1.js", [Definition.mk true "F" [] "fragment F on X a" "fragment F on X a" false false "h1"]),
        ("f2.js", [Definition.mk true "F" [] "fragment F on X b" "fragment F on X b" false false "h2"]),
        ("f3.js", [Definition.mk false "Q" ["F"] "query Q" "query Q" false false "h3"])])).map
      (fun r => (r.2, r.1.map (fun p => (p.1, p.2.text))))
    = some (([] : List Diag), [("f3.js", "fragment F on X a\n\nquery Q")]) := by
  rfl

/-! ## C5: exact-duplicate fragment dedup is idempotent -/

theorem filterDefs_append (l₁ l₂ : List Definition) :
    ∀ fm : AssocMap FragEntry,
    filterDefs fm (l₁ ++ l₂)
      = ((filterDefs fm l₁).1 ++ (filterDefs (filterDefs fm l₁).2 l₂).1,
         (filterDefs (filterDefs fm l₁).2 l₂).2) := by
  induction l₁ with
  | nil => intro fm; simp [filterDefs]
  | cons d rest ih =>
    intro fm
    by_cases hf : d.isFragment = true
    · cases hget : mapGet d.name fm with
      | some entry =>
        by_cases ht : d.printText = entry.text
        · simp only [List.cons_append, filterDefs, hf, if_true, hget, ht, if_pos]
          exact ih fm
        · simp only [List.cons_append, filterDefs, hf, if_true, hget, ht, if_neg, ite_false,
            List.append_eq]
          rw [ih fm]
      | none =>
        simp only [List.cons_append, filterDefs, hf, if_true, hget, List.append_eq]
        rw [ih _]
    · have hf' : d.isFragment = false := by
        cases hb : d.isFragment
        · rfl
        · exact absurd hb hf
      simp only [List.cons_append, filterDefs, hf', Bool.false_eq_true, if_false, List.append_eq]
      rw [ih fm]

theorem mergeAll_append_ok (env : Env) (l₁ l₂ : List (String × List Definition)) :
    ∀ st st', mergeAll env st l₁ = Except.ok st' →
    mergeAll env st (l₁ ++ l₂) = mergeAll env st' l₂ := by
  induction l₁ with
  | nil =>
    intro st st' h
    simp only [mergeAll] at h
    cases h
    rfl
  | cons node rest ih =>
    intro st st' h
    obtain ⟨fp, dfs⟩ := node
    simp only [mergeAll] at h
    simp only [List.cons_append, mergeAll]
    cases hp : processFile env st fp dfs with
    | ok st1 => rw [hp] at h; exact ih st1 st' h
    | error e => rw [hp] at h; exact Except.noConfusion h

theorem mergeAll_append_err (env : Env) (l₁ l₂ : List (String × List Definition)) :
    ∀ st e, mergeAll env st l₁ = Except.error e →
    mergeAll env st (l₁ ++ l₂) = Except.error e := by
  induction l₁ with
  | nil => intro st e h; simp only [mergeAll] at h; cases h
  | cons node rest ih =>
    intro st e h
    obtain ⟨fp, dfs⟩ := node
    simp only [mergeAll] at h
    simp only [List.cons_append, mergeAll]
    cases hp : processFile env st fp dfs with
    | ok st1 => rw [hp] at h; exact ih st1 e h
    | error e' => rw [hp] at h; exact h

/-- C5: a fragment definition `d` whose name was already registered with
identical canonical printed text (its first occurrence `d0` lies earlier in
the batch) is dropped from its file's definition list by the dedup filter,
and the whole compilation output is the same as for the batch without `d`:
exact-duplicate dedup is idempotent, and hence order-independent for exact
duplicates (either order reduces to the same duplicate-free batch). -/
theorem claim_c5_dedup_idempotent (env : Env) (fuel : Nat)
    (files1 files2 : List (String × List Definition)) (f : String)
    (pre post : List Definition) (d d0 : Definition)
    (hfrag : d.isFragment = true)
    (hfirst : firstFragIn (files1.flatMap Prod.snd ++ pre) d.name = some d0)
    (htext : d0.printText = d.printText)
    (hpv1 : env.preValidate f (pre ++ d :: post) = [])
    (hpv2 : env.preValidate f (pre ++ post) = []) :
    (∀ st1, mergeAll env initState files1 = Except.ok st1 →
      filterDefs st1.fragmentMap (pre ++ d :: post) = filterDefs st1.fragmentMap (pre ++ post))
    ∧ write env fuel (files1 ++ (f, pre ++ d :: post) :: files2)
        = write env fuel (files1 ++ (f, pre ++ post) :: files2) := by
  have hdrop : ∀ st1, mergeAll env initState files1 = Except.ok st1 →
      filterDefs st1.fragmentMap (pre ++ d :: post)
        = filterDefs st1.fragmentMap (pre ++ post) := by
    intro st1 hm
    have hreg : mapGet d.name (filterDefs st1.fragmentMap pre).2
        = some (FragEntry.mk d0 d0.printText) := by
      rw [filterDefs_get pre st1.fragmentMap d.name]
      rw [mergeAll_fragGet env files1 initState st1 hm d.name]
      have hinit : mapGet d.name initState.fragmentMap = none := rfl
      rw [hinit]
      have h1 : orElseO (none : Option FragEntry)
          ((firstFragmentNamed files1 d.name).map (fun x => FragEntry.mk x x.printText))
          = (firstFragmentNamed files1 d.name).map (fun x => FragEntry.mk x x.printText) := rfl
      rw [h1]
      show orElseO ((firstFragIn (files1.flatMap Prod.snd) d.name).map
          (fun x => FragEntry.mk x x.printText))
          ((firstFragIn pre d.name).map (fun x => FragEntry.mk x x.printText))
        = some (FragEntry.mk d0 d0.printText)
      rw [← orElseO_map, ← firstFragIn_append, hfirst]
      rfl
    have hstep : filterDefs (filterDefs st1.fragmentMap pre).2 (d :: post)
        = filterDefs (filterDefs st1.fragmentMap pre).2 post := by
      simp only [filterDefs, hfrag, if_true, hreg]
      have hc : d.printText = (FragEntry.mk d0 d0.printText).text := htext.symm
      rw [if_pos hc]
    rw [filterDefs_append pre (d :: post), filterDefs_append pre post, hstep]
  refine ⟨hdrop, ?_⟩
  unfold write writeFull
  cases hm : mergeAll env initState files1 with
  | error e =>
    rw [mergeAll_append_err env files1 _ initState e hm,
      mergeAll_append_err env files1 _ initState e hm]
  | ok st1 =>
    rw [mergeAll_append_ok env files1 _ initState st1 hm,
      mergeAll_append_ok env files1 _ initState st1 hm]
    simp only [mergeAll, processFile, hpv1, hpv2, List.isEmpty_nil, if_true]
    rw [hdrop st1 hm]

/-- Concrete instance of the dedup-idempotence theorem: a byte-identical
redefinition of fragment F in a second file (differing only in parser
metadata) leaves the whole compilation output unchanged. -/
theorem claim_c5_dedup_idempotent_witness :
    write (Env.mk (fun _ _ => []) (fun _ => []) id) 5
        ([("a.js", [Definition.mk true "F" [] "fragment F on X a" "fragment F on X a" false false "h1"])]
          ++ ("b.js", [] ++ Definition.mk true "F" [] "fragment F on X a" "fragment F on X a" false false "h2" :: []) :: [])
      = write (Env.mk (fun _ _ => []) (fun _ => []) id) 5
        ([("a.js", [Definition.mk true "F" [] "fragment F on X a" "fragment F on X a" false false "h1"])]
          ++ ("b.js", ([] : List Definition) ++ []) :: []) :=
  (claim_c5_dedup_idempotent (Env.mk (fun _ _ => []) (fun _ => []) id) 5
    ([("a.js", [Definition.mk true "F" [] "fragment F on X a" "fragment F on X a" false false "h1"])])
    [] "b.js" [] []
    (Definition.mk true "F" [] "fragment F on X a" "fragment F on X a" false false "h2")
    (Definition.mk true "F" [] "fragment F on X a" "fragment F on X a" false false "h1")
    rfl rfl rfl rfl rfl).2

/-! ## C4: duplicate-root check versus fragment resolution -/

/-- C4 (amended): the duplicate-root check runs BEFORE the operation's own
fragment resolution, not after it.  When an operation's file already has a
compiled query, the operation is rejected with exactly the one
duplicate-root diagnostic and its fragment spreads are never resolved: the
output map, the cache, and the diagnostics are otherwise untouched. -/
theorem claim_c4_amended (env : Env) (fuel : Nat) (st : MergeState)
    (compiled : Compiled) (errs : List Diag) (cache : Cache) (op : Definition)
    (h : mapHas ((mapGet op.name st.namePathMap).getD "") compiled = true) :
    compileOp env fuel st (compiled, errs, cache) op
      = some (compiled,
          errs ++ [Diag.multipleRootQueries ((mapGet op.name st.namePathMap).getD "")
            (mapGet op.name st.nameDefMap)
            ((mapGet ((mapGet op.name st.namePathMap).getD "") compiled).bind
              (fun q => mapGet q.name st.nameDefMap))],
          cache) := by
  simp only [compileOp, h, if_true]

/-- Concrete instance of the amended C4 theorem. -/
theorem claim_c4_amended_witness :
    compileOp (Env.mk (fun _ _ => []) (fun _ => []) id) 5
        (MergeState.mk [("B", "f.js")] [("B", Definition.mk false "B" ["Missing"] "query B" "query B" false false "h")] [] [])
        ([("f.js", Query.mk "A" "query A" "query A" "f.js" false false "h" none)], [], [])
        (Definition.mk false "B" ["Missing"] "query B" "query B" false false "h")
      = some ([("f.js", Query.mk "A" "query A" "query A" "f.js" false false "h" none)],
          [Diag.multipleRootQueries "f.js"
            (some (Definition.mk false "B" ["Missing"] "query B" "query B" false false "h")) none],
          []) :=
  claim_c4_amended (Env.mk (fun _ _ => []) (fun _ => []) id) 5
    (MergeState.mk [("B", "f.js")] [("B", Definition.mk false "B" ["Missing"] "query B" "query B" false false "h")] [] [])
    [("f.js", Query.mk "A" "query A" "query A" "f.js" false false "h" none)] [] []
    (Definition.mk false "B" ["Missing"] "query B" "query B" false false "h") rfl

/-- C4 (counterexample to the claim as stated): in a file whose second
operation B carries an unresolvable fragment spread, the duplicate-root
diagnostic for B is emitted even though B's spreads were never (and could
never be) successfully resolved — the error list holds exactly the
duplicate-root diagnostic and no undefined-fragment diagnostic at all. -/
theorem claim_c4_counterexample :
    (write (Env.mk (fun _ _ => []) (fun _ => []) id) 5
        [("f.js", [Definition.mk false "A" [] "query A" "query A" false false "h",
                   Definition.mk false "B" ["Missing"] "query B" "query B" false false "h"])]).map
      (fun r => (r.1.map Prod.fst, r.2))
    = some (["f.js"],
        [Diag.multipleRootQueries "f.js"
          (some (Definition.mk false "B" ["Missing"] "query B" "query B" false false "h"))
          (some (Definition.mk false "A" [] "query A" "query A" false false "h"))]) := by
  rfl

/-! ## C6: the dependency cache is never populated -/

theorem compileOp_cache (env : Env) (fuel : Nat) (st : MergeState)
    (acc acc' : Compiled × List Diag × Cache) (op : Definition)
    (h : compileOp env fuel st acc op = some acc') : acc'.2.2 = acc.2.2 := by
  unfold compileOp at h
  by_cases hc : mapHas ((mapGet op.name st.namePathMap).getD "") acc.1 = true
  · simp only [hc, if_true] at h
    cases h
    rfl
  · simp only [hc, if_false, Bool.false_eq_true, ite_false] at h
    cases hr : resolveLoop acc.2.2 st.fragmentMap (fragmentNames st)
        ((mapGet op.name st.namePathMap).getD "") fuel [op] [] [] with
    | none => rw [hr] at h; cases h
    | some r =>
      rw [hr] at h
      obtain ⟨used, rerrs⟩ := r
      simp only at h
      cases h
      rfl

theorem compileOps_cache (env : Env) (fuel : Nat) (st : MergeState) :
    ∀ (ops : List Definition) (acc r : Compiled × List Diag × Cache),
    compileOps env fuel st ops acc = some r → r.2.2 = acc.2.2 := by
  intro ops
  induction ops with
  | nil =>
    intro acc r h
    simp only [compileOps] at h
    cases h
    rfl
  | cons op rest ih =>
    intro acc r h
    simp only [compileOps] at h
    cases hop : compileOp env fuel st acc op with
    | none => rw [hop] at h; cases h
    | some acc1 =>
      rw [hop] at h
      exact (ih acc1 r h).trans (compileOp_cache env fuel st acc acc1 op hop)

/-- C6 (amended): the dependency cache `usedFragmentsForFragment` is never
populated — after the whole operation loop it is still the empty map it was
created as, and consequently resolving any operation against the run's
cache is literally the same as resolving it against an empty cache: every
resolution is direct against the fragment registry, regardless of which
operations were compiled earlier. -/
theorem claim_c6_amended (env : Env) (fuel : Nat) (st : MergeState)
    (ops : List Definition) (out : Compiled) (errs : List Diag) (cacheF : Cache)
    (h : compileOps env fuel st ops ([], [], ([] : Cache)) = some (out, errs, cacheF)) :
    cacheF = []
    ∧ compileOps env fuel st ops ([], [], ([] : Cache)) = some (out, errs, [])
    ∧ ∀ (fm : AssocMap FragEntry) (fns : List String) (fp : String) (fl : Nat)
        (stack : List Definition) (u : List String) (e : List Diag),
        resolveLoop cacheF fm fns fp fl stack u e = resolveLoop [] fm fns fp fl stack u e := by
  have hc : cacheF = [] := compileOps_cache env fuel st ops _ _ h
  refine ⟨hc, ?_, ?_⟩
  · rw [hc] at h; exact h
  · intro fm fns fp fl stack u e
    rw [hc]

/-- Concrete instance of the amended C6 theorem: one operation is compiled
and the cache component of the loop state is still empty. -/
theorem claim_c6_amended_witness :
    compileOps (Env.mk (fun _ _ => []) (fun _ => []) id) 1
        (MergeState.mk [("O", "o.js")] [("O", Definition.mk false "O" [] "query O" "query O" false false "h")] [] [])
        [Definition.mk false "O" [] "query O" "query O" false false "h"] ([], [], [])
      = some ([("o.js", Query.mk "O" "query O" "query O" "o.js" false false "h" none)], [], []) :=
  (claim_c6_amended (Env.mk (fun _ _ => []) (fun _ => []) id) 1
    (MergeState.mk [("O", "o.js")] [("O", Definition.mk false "O" [] "query O" "query O" false false "h")] [] [])
    [Definition.mk false "O" [] "query O" "query O" false false "h"]
    [("o.js", Query.mk "O" "query O" "query O" "o.js" false false "h" none)] [] [] rfl).2.1

/-- C6 (counterexample to the claim as stated): a batch where fragment A
spreads fragment B and two operations each spread A.  Both operations are
compiled — so their fragment closures were computed twice — yet the
dependency cache is still empty afterwards: it is never populated, lazily
or otherwise. -/
theorem claim_c6_counterexample :
    (writeFull (Env.mk (fun _ _ => []) (fun _ => []) id) 10
        [("ff.js", [Definition.mk true "A" ["B"] "fragment A on X" "fragment A on X" false false "h",
                    Definition.mk true "B" [] "fragment B on X" "fragment B on X" false false "h"]),
         ("o1.js", [Definition.mk false "O1" ["A"] "query O1" "query O1" false false "h"]),
         ("o2.js", [Definition.mk false "O2" ["A"] "query O2" "query O2" false false "h"])]).map
      (fun r => (r.1.map Prod.fst, r.2.2))
    = some (["o1.js", "o2.js"], ([] : Cache)) := by
  rfl

/-! ## Resolution-loop lemmas -/

theorem addUsed_mem (n m : String) (l : List String) (h : m ∈ addUsed n l) :
    m ∈ l ∨ m = n := by
  unfold addUsed at h
  by_cases hn : n ∈ l
  · rw [if_pos hn] at h; exact Or.inl h
  · rw [if_neg hn] at h
    rcases List.mem_append.mp h with h1 | h1
    · exact Or.inl h1
    · simp at h1; exact Or.inr h1

theorem addUsed_mem_self (n : String) (l : List String) : n ∈ addUsed n l := by
  unfold addUsed
  by_cases hn : n ∈ l
  · rw [if_pos hn]; exact hn
  · rw [if_neg hn]; exact List.mem_append_right _ (List.mem_singleton.mpr rfl)

theorem visitSpread_errs_mono (cache : Cache) (fm : AssocMap FragEntry) (fns : List String)
    (fp : String) (acc : ResolveAcc) (n : String) (x : Diag) (hx : x ∈ acc.errs) :
    x ∈ (visitSpread cache fm fns fp acc n).errs := by
  unfold visitSpread
  cases h1 : mapGet n cache with
  | some derived => exact hx
  | none =>
    cases h2 : mapGet n fm with
    | some entry => exact hx
    | none => exact List.mem_append_left _ hx

theorem foldl_visitSpread_errs_mono (cache : Cache) (fm : AssocMap FragEntry)
    (fns : List String) (fp : String) :
    ∀ (l : List String) (acc : ResolveAcc) (x : Diag), x ∈ acc.errs →
    x ∈ (l.foldl (visitSpread cache fm fns fp) acc).errs := by
  intro l
  induction l with
  | nil => intro acc x hx; exact hx
  | cons m rest ih =>
    intro acc x hx
    exact ih _ x (visitSpread_errs_mono cache fm fns fp acc m x hx)

theorem resolveLoop_errs_mono (cache : Cache) (fm : AssocMap FragEntry) (fns : List String)
    (fp : String) :
    ∀ (fuel : Nat) (stack : List Definition) (used : List String) (errs : List Diag)
      (u : List String) (e : List Diag) (x : Diag),
    resolveLoop cache fm fns fp fuel stack used errs = some (u, e) → x ∈ errs → x ∈ e := by
  intro fuel
  induction fuel with
  | zero =>
    intro stack used errs u e x h hx
    cases stack with
    | nil => simp only [resolveLoop] at h; cases h; exact hx
    | cons d rest =>
      simp only [resolveLoop] at h
      exact Option.noConfusion h
  | succ f ih =>
    intro stack used errs u e x h hx
    cases stack with
    | nil => simp only [resolveLoop] at h; cases h; exact hx
    | cons d rest =>
      simp only [resolveLoop] at h
      exact ih _ _ _ _ _ x h (foldl_visitSpread_errs_mono cache fm fns fp d.spreads _ x hx)

theorem visitSpread_errs_shape (cache : Cache) (fm : AssocMap FragEntry) (fns : List String)
    (fp : String) (acc : ResolveAcc) (n : String) (x : Diag)
    (hx : x ∈ (visitSpread cache fm fns fp acc n).errs) :
    x ∈ acc.errs ∨ ∃ m, x = Diag.undefinedFragment fp m (closestFragment fns m) := by
  unfold visitSpread at hx
  cases h1 : mapGet n cache with
  | some derived => rw [h1] at hx; exact Or.inl hx
  | none =>
    rw [h1] at hx
    cases h2 : mapGet n fm with
    | some entry => rw [h2] at hx; exact Or.inl hx
    | none =>
      rw [h2] at hx
      rcases List.mem_append.mp hx with h3 | h3
      · exact Or.inl h3
      · simp at h3; exact Or.inr ⟨n, h3⟩

theorem foldl_visitSpread_errs_shape (cache : Cache) (fm : AssocMap FragEntry)
    (fns : List String) (fp : String) :
    ∀ (l : List String) (acc : ResolveAcc) (x : Diag),
    x ∈ (l.foldl (visitSpread cache fm fns fp) acc).errs →
    x ∈ acc.errs ∨ ∃ m, x = Diag.undefinedFragment fp m (closestFragment fns m) := by
  intro l
  induction l with
  | nil => intro acc x hx; exact Or.inl hx
  | cons m rest ih =>
    intro acc x hx
    rcases ih _ x hx with h1 | h1
    · exact visitSpread_errs_shape cache fm fns fp acc m x h1
    · exact Or.inr h1

/-- Every diagnostic the resolution loop emits is an undefined-fragment
diagnostic whose suggestion is the computed nearest-name candidate. -/
theorem resolveLoop_errs_shape (cache : Cache) (fm : AssocMap FragEntry) (fns : List String)
    (fp : String) :
    ∀ (fuel : Nat) (stack : List Definition) (used : List String) (errs : List Diag)
      (u : List String) (e : List Diag) (x : Diag),
    resolveLoop cache fm fns fp fuel stack used errs = some (u, e) → x ∈ e →
    x ∈ errs ∨ ∃ m, x = Diag.undefinedFragment fp m (closestFragment fns m) := by
  intro fuel
  induction fuel with
  | zero =>
    intro stack used errs u e x h hx
    cases stack with
    | nil => simp only [resolveLoop] at h; cases h; exact Or.inl hx
    | cons d rest =>
      simp only [resolveLoop] at h
      exact Option.noConfusion h
  | succ f ih =>
    intro stack used errs u e x h hx
    cases stack with
    | nil => simp only [resolveLoop] at h; cases h; exact Or.inl hx
    | cons d rest =>
      simp only [resolveLoop] at h
      rcases ih _ _ _ _ _ x h hx with h1 | h1
      · exact foldl_visitSpread_errs_shape cache fm fns fp d.spreads _ x h1
      · exact Or.inr h1

theorem foldl_visitSpread_emit (cache : Cache) (fm : AssocMap FragEntry) (fns : List String)
    (fp : String) :
    ∀ (l : List String) (acc : ResolveAcc) (n : String), n ∈ l →
    mapGet n cache = none → mapGet n fm = none →
    Diag.undefinedFragment fp n (closestFragment fns n)
      ∈ (l.foldl (visitSpread cache fm fns fp) acc).errs := by
  intro l
  induction l with
  | nil => intro acc n hn; cases hn
  | cons m rest ih =>
    intro acc n hn hc hf
    rcases List.mem_cons.mp hn with h1 | h1
    · subst h1
      rw [List.foldl_cons]
      apply foldl_visitSpread_errs_mono
      unfold visitSpread
      rw [hc, hf]
      exact List.mem_append_right _ (List.mem_singleton.mpr rfl)
    · rw [List.foldl_cons]
      exact ih _ n h1 hc hf

/-- A fragment spread of the first stacked definition that is found in
neither the cache nor the registry produces its undefined-fragment
diagnostic in the loop's final error list. -/
theorem resolveLoop_emits (cache : Cache) (fm : AssocMap FragEntry) (fns : List String)
    (fp : String) (fuel : Nat) (d : Definition) (rest : List Definition)
    (used : List String) (errs : List Diag) (u : List String) (e : List Diag) (n : String)
    (h : resolveLoop cache fm fns fp fuel (d :: rest) used errs = some (u, e))
    (hn : n ∈ d.spreads) (hc : mapGet n cache = none) (hf : mapGet n fm = none) :
    Diag.undefinedFragment fp n (closestFragment fns n) ∈ e := by
  cases fuel with
  | zero =>
    simp only [resolveLoop] at h
    exact Option.noConfusion h
  | succ f =>
    simp only [resolveLoop] at h
    exact resolveLoop_errs_mono cache fm fns fp f _ _ _ u e _ h
      (foldl_visitSpread_emit cache fm fns fp d.spreads _ n hn hc hf)

theorem visitSpread_used_none (fm : AssocMap FragEntry) (fns : List String)
    (fp : String) (acc : ResolveAcc) (n m : String)
    (hm : m ∈ (visitSpread [] fm fns fp acc n).used) :
    m ∈ acc.used ∨ (mapGet m fm).isSome = true := by
  unfold visitSpread at hm
  have hc : mapGet n ([] : Cache) = none := rfl
  rw [hc] at hm
  cases h2 : mapGet n fm with
  | some entry =>
    rw [h2] at hm
    rcases addUsed_mem n m acc.used hm with h3 | h3
    · exact Or.inl h3
    · subst h3; rw [h2]; exact Or.inr rfl
  | none => rw [h2] at hm; exact Or.inl hm

theorem foldl_visitSpread_used_none (fm : AssocMap FragEntry) (fns : List String)
    (fp : String) :
    ∀ (l : List String) (acc : ResolveAcc) (m : String),
    m ∈ (l.foldl (visitSpread [] fm fns fp) acc).used →
    m ∈ acc.used ∨ (mapGet m fm).isSome = true := by
  intro l
  induction l with
  | nil => intro acc m hm; exact Or.inl hm
  | cons n rest ih =>
    intro acc m hm
    rcases ih _ m hm with h1 | h1
    · exact visitSpread_used_none fm fns fp acc n m h1
    · exact Or.inr h1

/-- With an empty cache, every name in the final `usedFragments` set is
registered in the fragment map (or was present initially). -/
theorem resolveLoop_used_none (fm : AssocMap FragEntry) (fns : List String) (fp : String) :
    ∀ (fuel : Nat) (stack : List Definition) (used : List String) (errs : List Diag)
      (u : List String) (e : List Diag) (m : String),
    resolveLoop [] fm fns fp fuel stack used errs = some (u, e) → m ∈ u →
    m ∈ used ∨ (mapGet m fm).isSome = true := by
  intro fuel
  induction fuel with
  | zero =>
    intro stack used errs u e m h hm
    cases stack with
    | nil => simp only [resolveLoop] at h; cases h; exact Or.inl hm
    | cons d rest =>
      simp only [resolveLoop] at h
      exact Option.noConfusion h
  | succ f ih =>
    intro stack used errs u e m h hm
    cases stack with
    | nil => simp only [resolveLoop] at h; cases h; exact Or.inl hm
    | cons d rest =>
      simp only [resolveLoop] at h
      rcases ih _ _ _ _ _ m h hm with h1 | h1
      · exact foldl_visitSpread_used_none fm fns fp d.spreads _ m h1
      · exact Or.inr h1

/-! ## C9: undefined fragments do not block compilation -/

/-- C9: an operation with a fragment spread found in neither the cache nor
the fragment registry still compiles: the undefined-fragment diagnostic
(with the nearest-name suggestion) is in the emitted errors, yet — because
the `missingFragment` flag is a `const false` that is never set — a
compiled query for the operation's file is stored in the output map, and
the unresolved fragment is absent from the used-fragment set, hence from
the assembled document. -/
theorem claim_c9_missing_fragment_still_compiles (env : Env) (fuel : Nat) (st : MergeState)
    (compiled : Compiled) (errs : List Diag) (op : Definition) (used : List String)
    (rerrs : List Diag) (n : String)
    (hnot : mapHas ((mapGet op.name st.namePathMap).getD "") compiled = false)
    (hres : resolveLoop [] st.fragmentMap (fragmentNames st)
        ((mapGet op.name st.namePathMap).getD "") fuel [op] [] [] = some (used, rerrs))
    (hn : n ∈ op.spreads)
    (hmiss : mapGet n st.fragmentMap = none) :
    compileOp env fuel st (compiled, errs, []) op
      = some (mapSet ((mapGet op.name st.namePathMap).getD "")
          (mkQuery env st op used ((mapGet op.name st.namePathMap).getD "")) compiled,
          errs ++ rerrs, [])
    ∧ Diag.undefinedFragment ((mapGet op.name st.namePathMap).getD "") n
        (closestFragment (fragmentNames st) n) ∈ rerrs
    ∧ n ∉ used := by
  refine ⟨?_, ?_, ?_⟩
  · simp only [compileOp, hnot, Bool.false_eq_true, if_false, ite_false]
    rw [hres]
  · exact resolveLoop_emits [] st.fragmentMap (fragmentNames st) _ fuel op [] [] [] used rerrs n
      hres hn rfl hmiss
  · intro hmem
    rcases resolveLoop_used_none st.fragmentMap (fragmentNames st) _ fuel [op] [] [] used rerrs n
        hres hmem with h1 | h1
    · cases h1
    · rw [hmiss] at h1; cases h1

/-- Concrete instance of C9: a query spreading the unregistered fragment
Nope is still compiled, with the diagnostic emitted alongside. -/
theorem claim_c9_missing_fragment_still_compiles_witness :
    compileOp (Env.mk (fun _ _ => []) (fun _ => []) id) 5
        (MergeState.mk [("Q", "g.js")] [("Q", Definition.mk false "Q" ["Nope"] "query Q" "query Q" false false "h")] [] [])
        ([], [], []) (Definition.mk false "Q" ["Nope"] "query Q" "query Q" false false "h")
      = some (mapSet "g.js"
          (mkQuery (Env.mk (fun _ _ => []) (fun _ => []) id)
            (MergeState.mk [("Q", "g.js")] [("Q", Definition.mk false "Q" ["Nope"] "query Q" "query Q" false false "h")] [] [])
            (Definition.mk false "Q" ["Nope"] "query Q" "query Q" false false "h") [] "g.js") [],
          [] ++ [Diag.undefinedFragment "g.js" "Nope" none], []) := by
  have h := claim_c9_missing_fragment_still_compiles
    (Env.mk (fun _ _ => []) (fun _ => []) id) 5
    (MergeState.mk [("Q", "g.js")] [("Q", Definition.mk false "Q" ["Nope"] "query Q" "query Q" false false "h")] [] [])
    [] [] (Definition.mk false "Q" ["Nope"] "query Q" "query Q" false false "h")
    [] [Diag.undefinedFragment "g.js" "Nope" none] "Nope" rfl rfl
    (by simp) rfl
  exact h.1

/-! ## C7: nearest-name suggestion -/

/-- The suggestion is the first registered name within edit distance 10,
in registration order: the source's sort does not reorder the filtered
candidate list (see `sortByScore`), so `[0]` reads the first sub-10
candidate. -/
theorem closestFragment_eq_find (names : List String) (missing : String) :
    closestFragment names missing
      = names.find? (fun f => levenshtein missing f < 10) := by
  induction names with
  | nil => rfl
  | cons f rest ih =>
    by_cases h : levenshtein missing f < 10
    · unfold closestFragment
      rw [List.map_cons, List.filter_cons, if_pos (by simpa using h),
        List.find?_cons_of_pos _ (by simpa using h)]
      rfl
    · unfold closestFragment
      rw [List.map_cons, List.filter_cons, if_neg (by simpa using h),
        List.find?_cons_of_neg _ (by simpa using h)]
      exact ih

/-- C7 (amended): the suggestion attached to an undefined-fragment
diagnostic is the FIRST registered fragment name, in registration order,
whose edit distance to the missing name is strictly below 10 — not
necessarily the minimum-distance one, since the sort with the boolean
comparator never reorders the candidates.  A suggestion is produced exactly
when some registered name is within distance 10 (so a produced suggestion
is a registered name at distance below 10, and when none is produced every
registered name is at distance 10 or more), and every diagnostic the
resolution loop emits carries exactly this computed suggestion. -/
theorem claim_c7_closest_fragment (names : List String) (missing : String) :
    closestFragment names missing = names.find? (fun f => levenshtein missing f < 10)
    ∧ (∀ c, closestFragment names missing = some c →
        c ∈ names ∧ levenshtein missing c < 10)
    ∧ (closestFragment names missing = none → ∀ f ∈ names, 10 ≤ levenshtein missing f)
    ∧ (∀ (cache : Cache) (fm : AssocMap FragEntry) (fp : String) (fuel : Nat)
        (stack : List Definition) (used : List String) (errs : List Diag)
        (u : List String) (e : List Diag) (x : Diag),
        resolveLoop cache fm names fp fuel stack used errs = some (u, e) → x ∈ e →
        x ∈ errs ∨ ∃ m, x = Diag.undefinedFragment fp m (closestFragment names m)) := by
  refine ⟨closestFragment_eq_find names missing, ?_, ?_, ?_⟩
  · intro c hc
    rw [closestFragment_eq_find] at hc
    refine ⟨List.mem_of_find?_eq_some hc, ?_⟩
    have := List.find?_some hc
    simpa using this
  · intro hc f hf
    rw [closestFragment_eq_find] at hc
    have := List.find?_eq_none.mp hc f hf
    have hnlt : ¬ levenshtein missing f < 10 := by simpa using this
    exact Nat.le_of_not_lt hnlt
  · intro cache fm fp fuel stack used errs u e x h hx
    exact resolveLoop_errs_shape cache fm names fp fuel stack used errs u e x h hx

set_option maxRecDepth 4000 in
/-- C7 (counterexample to the claim as stated): with the fragments
registered in the order PostFields, UserFields, a spread of UserField gets
the suggestion PostFields — the first candidate within distance 10, at
distance 5 — even though the registered name UserFields is strictly closer
(distance 1).  The suggestion is not the minimum-edit-distance registered
name. -/
theorem claim_c7_counterexample :
    closestFragment ["PostFields", "UserFields"] "UserField" = some "PostFields"
    ∧ levenshtein "UserField" "UserFields" < levenshtein "UserField" "PostFields"
    ∧ "UserFields" ∈ ["PostFields", "UserFields"] := by
  refine ⟨by decide, by decide, by decide⟩

set_option maxRecDepth 4000 in
/-- Concrete instance of the amended C7 theorem: with the registration
order UserFields, PostFields, a spread of UserField is suggested
UserFields (here the first sub-10 candidate coincides with the closest
name, matching the spec's example), and CompletelyUnrelatedName — at
distance at least 10 from every registered name — gets no suggestion. -/
theorem claim_c7_closest_fragment_witness :
    closestFragment ["UserFields", "PostFields"] "UserField" = some "UserFields"
    ∧ ("UserFields" ∈ ["UserFields", "PostFields"]
        ∧ levenshtein "UserField" "UserFields" < 10)
    ∧ 10 ≤ levenshtein "CompletelyUnrelatedName" "UserFields"
    ∧ closestFragment ["UserFields", "PostFields"] "CompletelyUnrelatedName" = none := by
  refine ⟨by decide, ?_, ?_, by decide⟩
  · exact (claim_c7_closest_fragment ["UserFields", "PostFields"] "UserField").2.1
      "UserFields" (by decide)
  · exact (claim_c7_closest_fragment ["UserFields", "PostFields"] "CompletelyUnrelatedName").2.2.1
      (by decide) "UserFields" (by simp)

/-! ## C8: static-query id derivation -/

theorem ofNat_toNat_valid (n : Nat) (h1 : n < 55296) : (Char.ofNat n).toNat = n := by
  unfold Char.ofNat
  have hv : n.isValidChar := Or.inl h1
  rw [dif_pos hv]
  rfl

theorem toLowerCh_kebab (c : Char) (h : isWordCh c = true) :
    isLowerCh (toLowerCh c) = true ∨ isDigitCh (toLowerCh c) = true := by
  unfold toLowerCh
  by_cases hu : isUpperCh c = true
  · rw [if_pos hu]
    left
    unfold isUpperCh at hu
    have h1 : 65 ≤ c.toNat ∧ c.toNat ≤ 90 := by
      simpa [Bool.and_eq_true, decide_eq_true_iff] using hu
    have h2 : (Char.ofNat (c.toNat + 32)).toNat = c.toNat + 32 :=
      ofNat_toNat_valid _ (by omega)
    unfold isLowerCh
    rw [h2]
    simp only [Bool.and_eq_true, decide_eq_true_iff]
    omega
  · rw [if_neg hu]
    have h' : isLowerCh c = true ∨ isUpperCh c = true ∨ isDigitCh c = true := by
      simpa [isWordCh, Bool.or_assoc] using h
    rcases h' with h1 | h1 | h1
    · exact Or.inl h1
    · exact absurd h1 hu
    · exact Or.inr h1

theorem splitRunsAux_chars :
    ∀ (s acc : List Char), (∀ c ∈ acc, isWordCh c = true) →
    ∀ w ∈ splitRunsAux acc s, ∀ c ∈ w, isWordCh c = true := by
  intro s
  induction s with
  | nil =>
    intro acc hacc w hw c hc
    unfold splitRunsAux at hw
    by_cases he : acc.isEmpty = true
    · rw [if_pos he] at hw; cases hw
    · rw [if_neg he] at hw
      rw [List.mem_singleton.mp hw] at hc
      exact hacc c (List.mem_reverse.mp hc)
  | cons x rest ih =>
    intro acc hacc w hw c hc
    unfold splitRunsAux at hw
    by_cases hx : isWordCh x = true
    · rw [if_pos hx] at hw
      refine ih (x :: acc) ?_ w hw c hc
      intro d hd
      rcases List.mem_cons.mp hd with h1 | h1
      · subst h1; exact hx
      · exact hacc d h1
    · rw [if_neg hx] at hw
      by_cases he : acc.isEmpty = true
      · rw [if_pos he] at hw
        exact ih [] (by intro d hd; cases hd) w hw c hc
      · rw [if_neg he] at hw
        rcases List.mem_cons.mp hw with h1 | h1
        · rw [h1] at hc
          exact hacc c (List.mem_reverse.mp hc)
        · exact ih [] (by intro d hd; cases hd) w h1 c hc

theorem splitCamelAux_chars :
    ∀ (s acc : List Char), (∀ c ∈ acc, isWordCh c = true) → (∀ c ∈ s, isWordCh c = true) →
    ∀ w ∈ splitCamelAux acc s, ∀ c ∈ w, isWordCh c = true := by
  intro s
  induction s with
  | nil =>
    intro acc hacc hs w hw c hc
    unfold splitCamelAux at hw
    by_cases he : acc.isEmpty = true
    · rw [if_pos he] at hw; cases hw
    · rw [if_neg he] at hw
      rw [List.mem_singleton.mp hw] at hc
      exact hacc c (List.mem_reverse.mp hc)
  | cons x rest ih =>
    intro acc hacc hs w hw c hc
    have hx : isWordCh x = true := hs x (List.mem_cons_self x rest)
    have hrest : ∀ c ∈ rest, isWordCh c = true :=
      fun d hd => hs d (List.mem_cons_of_mem x hd)
    cases acc with
    | nil =>
      simp only [splitCamelAux] at hw
      refine ih [x] ?_ hrest w hw c hc
      intro d hd
      rw [List.mem_singleton.mp hd]
      exact hx
    | cons p ps =>
      simp only [splitCamelAux] at hw
      by_cases hb : camelBreak p x rest = true
      · rw [if_pos hb] at hw
        rcases List.mem_cons.mp hw with h1 | h1
        · rw [h1] at hc
          exact hacc c (List.mem_reverse.mp hc)
        · refine ih [x] ?_ hrest w h1 c hc
          intro d hd
          rw [List.mem_singleton.mp hd]
          exact hx
      · rw [if_neg hb] at hw
        refine ih (x :: p :: ps) ?_ hrest w hw c hc
        intro d hd
        rcases List.mem_cons.mp hd with h1 | h1
        · subst h1; exact hx
        · exact hacc d h1

theorem kebabWords_chars (s : String) :
    ∀ w ∈ kebabWords s, ∀ c ∈ w, isWordCh c = true := by
  intro w hw c hc
  unfold kebabWords at hw
  rcases List.mem_flatMap.mp hw with ⟨run, hrun, hwrun⟩
  have hrunc : ∀ c ∈ run, isWordCh c = true :=
    splitRunsAux_chars s.data [] (by intro d hd; cases hd) run hrun
  exact splitCamelAux_chars run [] (by intro d hd; cases hd) hrunc w hwrun c hc

theorem joinHyphen_chars :
    ∀ (ws : List (List Char)) (c : Char), c ∈ joinHyphen ws →
    (∃ w ∈ ws, c ∈ w) ∨ c = '-' := by
  intro ws
  induction ws with
  | nil => intro c hc; cases hc
  | cons w rest ih =>
    intro c hc
    cases rest with
    | nil =>
      left
      exact ⟨w, List.mem_singleton.mpr rfl, hc⟩
    | cons w2 rest2 =>
      unfold joinHyphen at hc
      rcases List.mem_append.mp hc with h1 | h1
      · exact Or.inl ⟨w, List.mem_cons_self _ _, h1⟩
      · rcases List.mem_cons.mp h1 with h2 | h2
        · exact Or.inr h2
        · rcases ih c h2 with ⟨w', hw', hcw'⟩ | h3
          · exact Or.inl ⟨w', List.mem_cons_of_mem _ hw', hcw'⟩
          · exact Or.inr h3

/-- Every character of a kebab-cased string is a lower-case letter, a
digit, or a hyphen. -/
theorem kebabCase_chars (s : String) : ∀ c ∈ (kebabCase s).data, isKebabCh c = true := by
  intro c hc
  have hc' : c ∈ joinHyphen ((kebabWords s).map (List.map toLowerCh)) := hc
  rcases joinHyphen_chars _ c hc' with ⟨w, hw, hcw⟩ | h1
  · rcases List.mem_map.mp hw with ⟨w0, hw0, hww⟩
    subst hww
    rcases List.mem_map.mp hcw with ⟨c0, hc0, hcc⟩
    subst hcc
    have hword := kebabWords_chars s w0 hw0 c0 hc0
    rcases toLowerCh_kebab c0 hword with h | h
    · unfold isKebabCh
      rw [h]
      simp
    · unfold isKebabCh
      rw [h]
      simp
  · subst h1
    decide

/-- C8: a compiled query flagged as a static query carries the id
`sq--` followed by the kebab-cased relative path; the id derivation
`staticQueryId` is a pure function of the relative path (so the same
relative path always yields the same id), and the kebab-cased part is
lower-case hyphen-delimited. -/
theorem claim_c8_static_query_id (env : Env) (st : MergeState) (op : Definition)
    (used : List String) (fp : String)
    (h : (mkQuery env st op used fp).isStaticQuery = true) :
    (mkQuery env st op used fp).id = some ("sq--" ++ kebabCase (env.relativize fp))
    ∧ (∀ rel, staticQueryId rel = "sq--" ++ kebabCase rel)
    ∧ ∀ c ∈ (kebabCase (env.relativize fp)).data, isKebabCh c = true := by
  refine ⟨?_, fun rel => rfl, fun c hc => kebabCase_chars _ c hc⟩
  simp only [mkQuery] at h ⊢
  rw [if_pos h]
  rfl

set_option maxRecDepth 8000 in
/-- Concrete instance of C8: the id of a static query in
src/pages/myPage.js. -/
theorem claim_c8_static_query_id_witness :
    (mkQuery (Env.mk (fun _ _ => []) (fun _ => []) id) initState
        (Definition.mk false "S" [] "query S" "query S" false true "h") [] "src/pages/myPage.js").id
      = some ("sq--" ++ kebabCase "src/pages/myPage.js")
    ∧ staticQueryId "src/pages/myPage.js" = "sq--src-pages-my-page-js" :=
  ⟨(claim_c8_static_query_id (Env.mk (fun _ _ => []) (fun _ => []) id) initState
      (Definition.mk false "S" [] "query S" "query S" false true "h") [] "src/pages/myPage.js" rfl).1,
    by decide⟩

/-! ## C10: name-keyed indices are last-writer-wins -/

/-- C10: two same-named operations `d1` (in file A, processed first) and
`d2` (in file B, processed later).  The name-keyed indices overwrite, so
both operations resolve their file to B: the first-iterated operation `d1`
compiles with its own body but with `originalText`, `hash` and the
classification flags of the later definition `d2`, stored under B's path;
the second operation is then rejected as a duplicate root of that same
shared path, with both diagnostic positions naming the later definition. -/
theorem claim_c10_last_writer_wins (env : Env) (fuel : Nat) (A B : String)
    (d1 d2 : Definition)
    (hA : env.preValidate A [d1] = []) (hB : env.preValidate B [d2] = [])
    (hk1 : d1.isFragment = false) (hk2 : d2.isFragment = false)
    (hn : d2.name = d1.name)
    (hs1 : d1.spreads = []) (_hAB : A ≠ B) :
    ∃ q gdiags,
      write env (fuel + 1) [(A, [d1]), (B, [d2])]
        = some ([(B, q)], gdiags ++ [Diag.multipleRootQueries B (some d2) (some d2)])
      ∧ q.name = d1.name ∧ q.text = printDoc [d1]
      ∧ q.originalText = d2.text ∧ q.isHook = d2.isHook
      ∧ q.isStaticQuery = d2.isStaticQuery ∧ q.hash = d2.hash ∧ q.path = B
      ∧ ∀ g ∈ gdiags, isMultipleRoot g = false := by
  have hpf1 : processFile env initState A [d1]
      = Except.ok (MergeState.mk [(d1.name, A)] [(d1.name, d1)] [d1] []) := by
    unfold processFile
    rw [hA]
    simp only [List.isEmpty_nil, if_true, initState]
    simp only [filterDefs, hk1, Bool.false_eq_true, if_false, indexDefs, List.foldl_cons,
      List.foldl_nil, indexStep, mapSet, List.nil_append]
  have hpf2 : processFile env (MergeState.mk [(d1.name, A)] [(d1.name, d1)] [d1] []) B [d2]
      = Except.ok (MergeState.mk [(d1.name, B)] [(d1.name, d2)] [d1, d2] []) := by
    unfold processFile
    rw [hB]
    simp only [List.isEmpty_nil, if_true]
    simp only [filterDefs, hk2, Bool.false_eq_true, if_false, indexDefs, List.foldl_cons,
      List.foldl_nil, indexStep, mapSet, hn, if_pos, List.nil_append]
    rfl
  have hmerge : mergeAll env initState [(A, [d1]), (B, [d2])]
      = Except.ok (MergeState.mk [(d1.name, B)] [(d1.name, d2)] [d1, d2] []) := by
    simp only [mergeAll, hpf1, hpf2]
  have hr1 : resolveLoop [] [] [] B (fuel + 1) [d1] [] [] = some ([], []) := by
    simp only [resolveLoop, hs1, List.foldl_nil]
  have hq : mkQuery env (MergeState.mk [(d1.name, B)] [(d1.name, d2)] [d1, d2] []) d1 [] B
      = Query.mk d1.name (printDoc [d1]) d2.text B d2.isHook d2.isStaticQuery d2.hash
          (if d2.isStaticQuery then some (staticQueryId (env.relativize B)) else none) := by
    unfold mkQuery
    simp [mapGet]
  have hop1 : compileOp env (fuel + 1)
      (MergeState.mk [(d1.name, B)] [(d1.name, d2)] [d1, d2] []) ([], [], []) d1
      = some ([(B, Query.mk d1.name (printDoc [d1]) d2.text B d2.isHook d2.isStaticQuery d2.hash
          (if d2.isStaticQuery then some (staticQueryId (env.relativize B)) else none))], [], []) := by
    unfold compileOp
    simp only [mapGet, if_pos, Option.getD_some, mapHas, Option.isSome_none, Bool.false_eq_true,
      if_false, ite_false, fragmentNames, List.map_nil]
    rw [hr1]
    simp only [ite_false, Bool.false_eq_true]
    rw [hq]
    rfl
  have hop2 : compileOp env (fuel + 1)
      (MergeState.mk [(d1.name, B)] [(d1.name, d2)] [d1, d2] [])
      ([(B, Query.mk d1.name (printDoc [d1]) d2.text B d2.isHook d2.isStaticQuery d2.hash
          (if d2.isStaticQuery then some (staticQueryId (env.relativize B)) else none))], [], []) d2
      = some ([(B, Query.mk d1.name (printDoc [d1]) d2.text B d2.isHook d2.isStaticQuery d2.hash
          (if d2.isStaticQuery then some (staticQueryId (env.relativize B)) else none))],
          [Diag.multipleRootQueries B (some d2) (some d2)], []) := by
    unfold compileOp
    simp only [hn, mapGet, if_pos, Option.getD_some, mapHas, Option.isSome_some, if_true]
    simp
  refine ⟨Query.mk d1.name (printDoc [d1]) d2.text B d2.isHook d2.isStaticQuery d2.hash
      (if d2.isStaticQuery then some (staticQueryId (env.relativize B)) else none),
    globalDiags env (MergeState.mk [(d1.name, B)] [(d1.name, d2)] [d1, d2] []),
    ?_, rfl, rfl, rfl, rfl, rfl, rfl, rfl, ?_⟩
  · unfold write writeFull
    rw [hmerge]
    simp only [compileOps, hop1, hop2]
    rfl
  · intro g hg
    unfold globalDiags at hg
    rcases List.mem_map.mp hg with ⟨e, he, hge⟩
    rw [← hge]
    rfl

/-- Concrete instance of C10: two operations named N in a.js and b.js. -/
theorem claim_c10_last_writer_wins_witness :
    ∃ q gdiags,
      write (Env.mk (fun _ _ => []) (fun _ => []) id) (4 + 1)
          [("a.js", [Definition.mk false "N" [] "query N v1" "orig1" false false "h1"]),
           ("b.js", [Definition.mk false "N" [] "query N v2" "orig2" true true "h2"])]
        = some ([("b.js", q)],
            gdiags ++ [Diag.multipleRootQueries "b.js"
              (some (Definition.mk false "N" [] "query N v2" "orig2" true true "h2"))
              (some (Definition.mk false "N" [] "query N v2" "orig2" true true "h2"))])
      ∧ q.name = (Definition.mk false "N" [] "query N v1" "orig1" false false "h1").name
      ∧ q.text = printDoc [Definition.mk false "N" [] "query N v1" "orig1" false false "h1"]
      ∧ q.originalText = (Definition.mk false "N" [] "query N v2" "orig2" true true "h2").text
      ∧ q.isHook = (Definition.mk false "N" [] "query N v2" "orig2" true true "h2").isHook
      ∧ q.isStaticQuery = (Definition.mk false "N" [] "query N v2" "orig2" true true "h2").isStaticQuery
      ∧ q.hash = (Definition.mk false "N" [] "query N v2" "orig2" true true "h2").hash
      ∧ q.path = "b.js"
      ∧ ∀ g ∈ gdiags, isMultipleRoot g = false :=
  claim_c10_last_writer_wins (Env.mk (fun _ _ => []) (fun _ => []) id) 4 "a.js" "b.js"
    (Definition.mk false "N" [] "query N v1" "orig1" false false "h1")
    (Definition.mk false "N" [] "query N v2" "orig2" true true "h2")
    rfl rfl rfl rfl rfl rfl (by decide)

/-! ## C3: one compiled query per file, first operation wins -/

theorem mkQuery_name (env : Env) (st : MergeState) (op : Definition) (used : List String)
    (fp : String) : (mkQuery env st op used fp).name = op.name := rfl

theorem mkQuery_path (env : Env) (st : MergeState) (op : Definition) (used : List String)
    (fp : String) : (mkQuery env st op used fp).path = fp := rfl

theorem mkQuery_originalText (env : Env) (st : MergeState) (op : Definition)
    (used : List String) (fp : String) :
    (mkQuery env st op used fp).originalText = ((mapGet op.name st.nameDefMap).getD op).text :=
  rfl

theorem filterDefs_keep_all (defs : List Definition) :
    ∀ fm : AssocMap FragEntry, (defs.map (fun d => d.name)).Nodup →
    (∀ d ∈ defs, mapGet d.name fm = none) → (filterDefs fm defs).1 = defs := by
  induction defs with
  | nil => intro fm _ _; rfl
  | cons d rest ih =>
    intro fm hnodup hnone
    have hd : mapGet d.name fm = none := hnone d (List.mem_cons_self d rest)
    have hnotin : d.name ∉ rest.map (fun x => x.name) := by
      have := hnodup
      rw [List.map_cons, List.nodup_cons] at this
      exact this.1
    have hnodup' : (rest.map (fun x => x.name)).Nodup := by
      have := hnodup
      rw [List.map_cons, List.nodup_cons] at this
      exact this.2
    by_cases hf : d.isFragment = true
    · simp only [filterDefs, hf, if_true, hd]
      have : (filterDefs (mapSet d.name (FragEntry.mk d d.printText) fm) rest).1 = rest := by
        apply ih _ hnodup'
        intro x hx
        have hne : d.name ≠ x.name := by
          intro he
          exact hnotin (he ▸ List.mem_map.mpr ⟨x, hx, rfl⟩)
        rw [mapGet_mapSet_ne x.name d.name _ fm (Ne.symm (fun he => hne he.symm))]
        exact hnone x (List.mem_cons_of_mem d hx)
      rw [this]
    · have hf' : d.isFragment = false := by
        cases hb : d.isFragment
        · rfl
        · exact absurd hb hf
      simp only [filterDefs, hf', Bool.false_eq_true, if_false]
      have : (filterDefs fm rest).1 = rest := by
        apply ih _ hnodup'
        intro x hx
        exact hnone x (List.mem_cons_of_mem d hx)
      rw [this]

theorem indexDefs_path (fp : String) (defs : List Definition) :
    ∀ (st : MergeState) (n : String),
    (n ∈ defs.map (fun d => d.name) ∨ mapGet n st.namePathMap = some fp) →
    mapGet n (indexDefs fp st defs).namePathMap = some fp := by
  induction defs with
  | nil =>
    intro st n h
    rcases h with h | h
    · cases h
    · exact h
  | cons d rest ih =>
    intro st n h
    have hstep : mapGet n (indexStep fp st d).namePathMap = some fp ∨ n ∈ rest.map (fun d => d.name) := by
      rcases h with h | h
      · rw [List.map_cons] at h
        rcases List.mem_cons.mp h with h1 | h1
        · left
          unfold indexStep
          simp only
          rw [h1, mapGet_mapSet_self]
        · right; exact h1
      · left
        unfold indexStep
        simp only
        by_cases he : n = d.name
        · rw [he, mapGet_mapSet_self]
        · rw [mapGet_mapSet_ne n d.name fp st.namePathMap (fun hc => he hc.symm)]
          exact h
    rcases hstep with h1 | h1
    · exact ih _ n (Or.inr h1)
    · exact ih _ n (Or.inl h1)

theorem indexDefs_nameDef_notin (fp : String) (defs : List Definition) :
    ∀ (st : MergeState) (n : String), n ∉ defs.map (fun d => d.name) →
    mapGet n (indexDefs fp st defs).nameDefMap = mapGet n st.nameDefMap := by
  induction defs with
  | nil => intro st n _; rfl
  | cons d rest ih =>
    intro st n h
    have h1 : n ≠ d.name := by
      intro he
      exact h (by simp [he])
    have h2 : n ∉ rest.map (fun d => d.name) := by
      intro he
      exact h (by simp [he])
    rw [indexDefs, List.foldl_cons, ← indexDefs, ih _ n h2]
    unfold indexStep
    simp only
    exact mapGet_mapSet_ne n d.name d st.nameDefMap (fun hc => h1 hc.symm)

theorem indexDefs_def_nodup (fp : String) (defs : List Definition) :
    ∀ (st : MergeState) (d : Definition), d ∈ defs → (defs.map (fun x => x.name)).Nodup →
    mapGet d.name (indexDefs fp st defs).nameDefMap = some d := by
  induction defs with
  | nil => intro st d h; cases h
  | cons x rest ih =>
    intro st d hd hnodup
    have hnotin : x.name ∉ rest.map (fun y => y.name) := by
      have := hnodup
      rw [List.map_cons, List.nodup_cons] at this
      exact this.1
    have hnodup' : (rest.map (fun y => y.name)).Nodup := by
      have := hnodup
      rw [List.map_cons, List.nodup_cons] at this
      exact this.2
    rcases List.mem_cons.mp hd with h1 | h1
    · subst h1
      rw [indexDefs, List.foldl_cons, ← indexDefs]
      rw [indexDefs_nameDef_notin fp rest _ d.name hnotin]
      unfold indexStep
      simp only
      exact mapGet_mapSet_self d.name d st.nameDefMap
    · rw [indexDefs, List.foldl_cons, ← indexDefs]
      exact ih _ d h1 hnodup'

theorem globalDiags_shape (env : Env) (st : MergeState) :
    ∀ x ∈ globalDiags env st, isMultipleRoot x = false := by
  intro x hx
  unfold globalDiags at hx
  rcases List.mem_map.mp hx with ⟨e, _, hge⟩
  rw [← hge]
  rfl

/-- C3: a file whose document yields exactly two operations (in order `o1`
then `o2`, with distinct definition names in the file).  The batch compiles
to exactly one query for that file — the one of the first-encountered
operation `o1` — and the error list holds exactly one duplicate-root
diagnostic, naming the second operation `o2` and the already-compiled
`o1`; `o2` never overwrites the stored query. -/
theorem claim_c3_duplicate_root (env : Env) (fuel : Nat) (f : String) (defs : List Definition)
    (o1 o2 : Definition) (used1 : List String) (rerrs1 : List Diag)
    (hpv : env.preValidate f defs = [])
    (hnodup : (defs.map (fun d => d.name)).Nodup)
    (hops : defs.filter (fun d => !d.isFragment) = [o1, o2])
    (hres : resolveLoop [] (filterDefs [] defs).2 ((filterDefs [] defs).2.map Prod.fst) f fuel
        [o1] [] [] = some (used1, rerrs1)) :
    ∃ q gdiags,
      write env fuel [(f, defs)]
        = some ([(f, q)],
            gdiags ++ (rerrs1 ++ [Diag.multipleRootQueries f (some o2) (some o1)]))
      ∧ q.name = o1.name ∧ q.originalText = o1.text ∧ q.path = f
      ∧ (gdiags ++ (rerrs1 ++ [Diag.multipleRootQueries f (some o2) (some o1)])).filter
          isMultipleRoot = [Diag.multipleRootQueries f (some o2) (some o1)] := by
  have ho1f : o1 ∈ defs.filter (fun d => !d.isFragment) := by
    rw [hops]; exact List.mem_cons_self _ _
  have ho2f : o2 ∈ defs.filter (fun d => !d.isFragment) := by
    rw [hops]; exact List.mem_cons_of_mem _ (List.mem_singleton.mpr rfl)
  have ho1 : o1 ∈ defs := List.mem_of_mem_filter ho1f
  have ho2 : o2 ∈ defs := List.mem_of_mem_filter ho2f
  have hkeep : (filterDefs ([] : AssocMap FragEntry) defs).1 = defs :=
    filterDefs_keep_all defs [] hnodup (fun _ _ => rfl)
  have hst : mergeAll env initState [(f, defs)]
      = Except.ok (indexDefs f (MergeState.mk [] [] [] (filterDefs [] defs).2) defs) := by
    simp only [mergeAll, processFile, hpv, List.isEmpty_nil, if_true, initState]
    rw [hkeep]
  have hfm : (indexDefs f (MergeState.mk [] [] [] (filterDefs [] defs).2) defs).fragmentMap
      = (filterDefs [] defs).2 := indexDefs_fragmentMap f defs _
  have hopsD : (indexDefs f (MergeState.mk [] [] [] (filterDefs [] defs).2) defs).operationDefinitions
      = [o1, o2] := by
    rw [indexDefs_ops]
    simpa using hops
  have hp1 : mapGet o1.name
      (indexDefs f (MergeState.mk [] [] [] (filterDefs [] defs).2) defs).namePathMap = some f :=
    indexDefs_path f defs _ o1.name (Or.inl (List.mem_map.mpr ⟨o1, ho1, rfl⟩))
  have hp2 : mapGet o2.name
      (indexDefs f (MergeState.mk [] [] [] (filterDefs [] defs).2) defs).namePathMap = some f :=
    indexDefs_path f defs _ o2.name (Or.inl (List.mem_map.mpr ⟨o2, ho2, rfl⟩))
  have hd1 : mapGet o1.name
      (indexDefs f (MergeState.mk [] [] [] (filterDefs [] defs).2) defs).nameDefMap = some o1 :=
    indexDefs_def_nodup f defs _ o1 ho1 hnodup
  have hd2 : mapGet o2.name
      (indexDefs f (MergeState.mk [] [] [] (filterDefs [] defs).2) defs).nameDefMap = some o2 :=
    indexDefs_def_nodup f defs _ o2 ho2 hnodup
  have hop1 : compileOp env fuel (indexDefs f (MergeState.mk [] [] [] (filterDefs [] defs).2) defs)
      ([], [], []) o1
      = some ([(f, mkQuery env (indexDefs f (MergeState.mk [] [] [] (filterDefs [] defs).2) defs)
          o1 used1 f)], rerrs1, []) := by
    unfold compileOp
    rw [hp1]
    simp only [Option.getD_some, mapHas, mapGet, Option.isSome_none, Bool.false_eq_true,
      if_false, ite_false]
    unfold fragmentNames
    rw [hfm, hres]
    simp [mapSet]
  have hop2 : compileOp env fuel (indexDefs f (MergeState.mk [] [] [] (filterDefs [] defs).2) defs)
      ([(f, mkQuery env (indexDefs f (MergeState.mk [] [] [] (filterDefs [] defs).2) defs)
          o1 used1 f)], rerrs1, []) o2
      = some ([(f, mkQuery env (indexDefs f (MergeState.mk [] [] [] (filterDefs [] defs).2) defs)
          o1 used1 f)],
          rerrs1 ++ [Diag.multipleRootQueries f (some o2) (some o1)], []) := by
    unfold compileOp
    rw [hp2]
    simp only [Option.getD_some, mapHas, mapGet, eq_self_iff_true, if_true, Option.isSome_some]
    rw [hd2]
    simp only [Option.some_bind, mkQuery_name]
    rw [hd1]
  have hshape1 : ∀ x ∈ rerrs1, isMultipleRoot x = false := by
    intro x hx
    rcases resolveLoop_errs_shape [] (filterDefs [] defs).2 ((filterDefs [] defs).2.map Prod.fst)
        f fuel [o1] [] [] used1 rerrs1 x hres hx with h1 | h1
    · cases h1
    · rcases h1 with ⟨m, hm⟩
      rw [hm]
      rfl
  refine ⟨mkQuery env (indexDefs f (MergeState.mk [] [] [] (filterDefs [] defs).2) defs) o1 used1 f,
    globalDiags env (indexDefs f (MergeState.mk [] [] [] (filterDefs [] defs).2) defs),
    ?_, mkQuery_name env _ o1 used1 f, ?_, mkQuery_path env _ o1 used1 f, ?_⟩
  · unfold write writeFull
    rw [hst]
    simp only [hopsD, compileOps, hop1, hop2, Option.map_some]
    rfl
  · rw [mkQuery_originalText, hd1]
    rfl
  · rw [List.filter_append, List.filter_append]
    have hg : (globalDiags env (indexDefs f (MergeState.mk [] [] [] (filterDefs [] defs).2) defs)).filter
        isMultipleRoot = [] := by
      apply List.filter_eq_nil_iff.mpr
      intro x hx
      rw [globalDiags_shape env _ x hx]
      exact Bool.false_ne_true
    have hr : rerrs1.filter isMultipleRoot = [] := by
      apply List.filter_eq_nil_iff.mpr
      intro x hx
      rw [hshape1 x hx]
      exact Bool.false_ne_true
    rw [hg, hr]
    rfl

/-- Concrete instance of C3: one file with the two operations A and B. -/
theorem claim_c3_duplicate_root_witness :
    ∃ q gdiags,
      write (Env.mk (fun _ _ => []) (fun _ => []) id) 2
          [("f.js", [Definition.mk false "A" [] "query A" "query A" false false "h1",
                     Definition.mk false "B" [] "query B" "query B" false false "h2"])]
        = some ([("f.js", q)],
            gdiags ++ ([] ++ [Diag.multipleRootQueries "f.js"
              (some (Definition.mk false "B" [] "query B" "query B" false false "h2"))
              (some (Definition.mk false "A" [] "query A" "query A" false false "h1"))]))
      ∧ q.name = (Definition.mk false "A" [] "query A" "query A" false false "h1").name
      ∧ q.originalText = (Definition.mk false "A" [] "query A" "query A" false false "h1").text
      ∧ q.path = "f.js"
      ∧ (gdiags ++ ([] ++ [Diag.multipleRootQueries "f.js"
            (some (Definition.mk false "B" [] "query B" "query B" false false "h2"))
            (some (Definition.mk false "A" [] "query A" "query A" false false "h1"))])).filter
          isMultipleRoot
        = [Diag.multipleRootQueries "f.js"
            (some (Definition.mk false "B" [] "query B" "query B" false false "h2"))
            (some (Definition.mk false "A" [] "query A" "query A" false false "h1"))] :=
  claim_c3_duplicate_root (Env.mk (fun _ _ => []) (fun _ => []) id) 2 "f.js"
    [Definition.mk false "A" [] "query A" "query A" false false "h1",
     Definition.mk false "B" [] "query B" "query B" false false "h2"]
    (Definition.mk false "A" [] "query A" "query A" false false "h1")
    (Definition.mk false "B" [] "query B" "query B" false false "h2")
    [] [] rfl (by decide) rfl rfl

/-! ## C2: fail-fast on structural validation -/

theorem mergeAll_fail (env : Env) (pre post : List (String × List Definition))
    (f : String) (dfs : List Definition)
    (hpre : ∀ p ∈ pre, env.preValidate p.1 p.2 = [])
    (hfail : env.preValidate f dfs ≠ []) :
    ∀ st, mergeAll env st (pre ++ (f, dfs) :: post)
      = Except.error ((env.preValidate f dfs).map (Diag.structural f)) := by
  induction pre with
  | nil =>
    intro st
    simp only [List.nil_append, mergeAll, processFile]
    have : (env.preValidate f dfs).isEmpty = false := by
      cases h : env.preValidate f dfs with
      | nil => exact absurd h hfail
      | cons a l => rfl
    simp [this]
  | cons p rest ih =>
    intro st
    have hp : env.preValidate p.1 p.2 = [] := hpre p (List.mem_cons_self p rest)
    simp only [List.cons_append, mergeAll, processFile, hp, List.isEmpty_nil, if_pos]
    exact ih (fun q hq => hpre q (List.mem_cons_of_mem p hq)) _

/-- C2: if some file fails structural (pre-merge) validation while every
file before it passes, `Runner.write` returns at that point: the result is
the empty compiled map with exactly that file's structural diagnostics, and
it is independent of every file after the failing one (those files are
never visited and contribute nothing to the registry or operation list). -/
theorem claim_c2_failfast (env : Env) (fuel : Nat)
    (pre post : List (String × List Definition)) (f : String) (dfs : List Definition)
    (hpre : ∀ p ∈ pre, env.preValidate p.1 p.2 = [])
    (hfail : env.preValidate f dfs ≠ []) :
    write env fuel (pre ++ (f, dfs) :: post)
      = some ([], (env.preValidate f dfs).map (Diag.structural f))
    ∧ write env fuel (pre ++ (f, dfs) :: post) = write env fuel (pre ++ [(f, dfs)]) := by
  have h1 : write env fuel (pre ++ (f, dfs) :: post)
      = some ([], (env.preValidate f dfs).map (Diag.structural f)) := by
    simp [write, writeFull, mergeAll_fail env pre post f dfs hpre hfail]
  have h2 : write env fuel (pre ++ [(f, dfs)])
      = some ([], (env.preValidate f dfs).map (Diag.structural f)) := by
    simp [write, writeFull, mergeAll_fail env pre [] f dfs hpre hfail]
  exact ⟨h1, h1.trans h2.symm⟩

/-- Concrete instance of the fail-fast theorem: the second of three files
fails structural validation; the batch compiles to the empty map with just
that file's diagnostic, and the third file is irrelevant. -/
theorem claim_c2_failfast_witness :
    write (Env.mk (fun fp _ => if fp = "b.js" then ["bad"] else []) (fun _ => []) id) 5
        ([("a.js", []), ("b.js", []), ("c.js", [])])
      = some ([], [Diag.structural "b.js" "bad"]) := by
  have h := claim_c2_failfast
    (Env.mk (fun fp _ => if fp = "b.js" then ["bad"] else []) (fun _ => []) id) 5
    ([("a.js", [])]) ([("c.js", [])]) "b.js" []
    (by intro p hp; simp at hp; simp [hp]) (by decide)
  simpa using h.1

end GatsbyQueryCompiler
